import Mathlib

/-!
Verification of the identifier-classification and bibliographic-record
pipeline of the `bib_lookup` package.

Strings are modelled as `List Char`; Python string methods (`strip`,
`lower`, `capitalize`, `replace`, `split`, regular-expression subs) are
given faithful executable counterparts.  Python code that raises an
exception is modelled by `Option`/`Except` results, with `none`/`error`
marking the raise.  Character classes follow Python's `re` module on the
ASCII range; code points ≥ 128 are treated as word characters, which
matches Python's Unicode `\w` on all letters (the only non-ASCII data in
this development).
-/

namespace BibLookup

/-- Character-list view of a string literal. -/
def lc (s : String) : List Char := s.data

/-- Python regex `\w` (word character): alphanumeric or underscore on the
ASCII range; non-ASCII code points are approximated as word characters. -/
def isWordChar (c : Char) : Bool := c.isAlphanum || c = '_' || decide (c.val ≥ 128)

/-- Python regex `\s` / `str.strip()` whitespace on the ASCII range. -/
def isPySpace (c : Char) : Bool :=
  c = ' ' || c = '\t' || c = '\n' || c = '\r' || decide (c.val = 11) || decide (c.val = 12)

/-- The character set of Python `str.strip(", ")`. -/
def isCS (c : Char) : Bool := c = ',' || c = ' '

/-- Drop the longest suffix satisfying `p` (right-hand part of `strip`). -/
def rdropWhileCL (p : Char → Bool) (l : List Char) : List Char :=
  (l.reverse.dropWhile p).reverse

/-- Python `str.strip(chars)`: drop characters of the set from both ends. -/
def pyStripChars (p : Char → Bool) (l : List Char) : List Char :=
  rdropWhileCL p (l.dropWhile p)

/-- Python `str.strip(", ")`. -/
def stripCS : List Char → List Char := pyStripChars isCS

/-- Python `str.strip()` (whitespace). -/
def stripWs : List Char → List Char := pyStripChars isPySpace

/-- Python `str.lower()` (ASCII fragment). -/
def lowerCL (l : List Char) : List Char := l.map Char.toLower

/-- Python `str.capitalize()`: first character upper-cased, rest lower-cased. -/
def pyCapitalize : List Char → List Char
  | [] => []
  | c :: cs => c.toUpper :: lowerCL cs

/-- Python `"sep".join`-style join of character lists with a one-character
separator. -/
def joinChar (sep : Char) : List (List Char) → List Char
  | [] => []
  | [x] => x
  | x :: y :: rest => x ++ sep :: joinChar sep (y :: rest)

/-- Repeated spaces, Python `" " * n`. -/
def spaces (n : Nat) : List Char := List.replicate n ' '

/-- Maximal runs of characters satisfying `p` (helper; `acc` holds the
current run reversed). -/
def runsByAux (p : Char → Bool) (acc : List Char) : List Char → List (List Char)
  | [] => if acc = [] then [] else [acc.reverse]
  | c :: cs =>
    if p c then runsByAux p (c :: acc) cs
    else if acc = [] then runsByAux p [] cs
    else acc.reverse :: runsByAux p [] cs

/-- Split a character list into the maximal runs of characters satisfying
`p`, discarding the separators. -/
def runsBy (p : Char → Bool) (l : List Char) : List (List Char) := runsByAux p [] l

/-- Python `re.findall("\\w+", ·)`. -/
def reWords : List Char → List (List Char) := runsBy isWordChar

/-- Python `str.split()` (split on whitespace runs, no empty pieces). -/
def wsSplit : List Char → List (List Char) := runsBy (fun c => ! isPySpace c)

/-- Collapse every whitespace run to a single space:
Python `re.sub("\\s+", " ", ·)`. -/
def collapseWs : List Char → List Char
  | [] => []
  | c :: cs =>
    let r := collapseWs cs
    if isPySpace c then (if r.head? = some ' ' then r else ' ' :: r) else c :: r

/-- The part of `l` strictly before the first occurrence of `pat`
(Python `l.split(pat)[0]` for non-empty `pat`). -/
def beforeFirst (pat : List Char) : List Char → List Char
  | [] => []
  | c :: cs => if pat.isPrefixOf (c :: cs) then [] else c :: beforeFirst pat cs

/-- Decidable substring test. -/
def containsSub (hay pat : List Char) : Bool :=
  match hay with
  | [] => pat.isPrefixOf ([] : List Char)
  | c :: cs => pat.isPrefixOf (c :: cs) || containsSub cs pat

/-- Helper for `afterLast`: `skip > 0` means the scan is still inside a
previous match. -/
def afterLastGo (pat : List Char) (skip : Nat) : List Char → List Char
  | [] => []
  | c :: cs =>
    if skip > 0 then afterLastGo pat (skip - 1) cs
    else if pat ≠ [] ∧ pat.isPrefixOf (c :: cs) then afterLastGo pat (pat.length - 1) cs
    else if containsSub cs pat then afterLastGo pat 0 cs
    else c :: cs

/-- The part of `l` strictly after the last (leftmost-non-overlapping)
occurrence of the non-empty `pat`, or `l` itself if `pat` does not occur
(Python `l.split(pat)[-1]`). -/
def afterLast (pat : List Char) (l : List Char) : List Char := afterLastGo pat 0 l

/-! ## Static tables from `_bib.py` -/

/-- Keys of `BIB_ENTRY_TYPES`, in source order. -/
def ENTRY_TYPES : List (List Char) :=
  [lc "article", lc "periodical", lc "suppperiodical", lc "inbook", lc "suppbook",
   lc "bookinbook", lc "book", lc "mvbook", lc "incollection", lc "suppcollection",
   lc "collection", lc "mvcollection", lc "inproceedings", lc "proceedings",
   lc "mvproceedings", lc "inreference", lc "reference", lc "mvreference",
   lc "manual", lc "report", lc "patent", lc "thesis", lc "phdthesis",
   lc "mastersthesis", lc "online", lc "booklet", lc "unpublished", lc "misc",
   lc "software", lc "set", lc "xdata"]

/-- The `_required_fields` table; entry types that are absent get `[]`
(mirroring `_required_fields.get(x, [])`). -/
def requiredFieldsTable : List (List Char × List (List Char)) :=
  [(lc "article", [lc "author", lc "title", lc "journal", lc "year"]),
   (lc "book", [lc "author|editor", lc "title", lc "publisher", lc "year"]),
   (lc "booklet", [lc "title"]),
   (lc "inbook", [lc "author|editor", lc "title", lc "chapter+|pages", lc "publisher", lc "year"]),
   (lc "incollection", [lc "author", lc "title", lc "booktitle", lc "publisher", lc "year"]),
   (lc "inproceedings", [lc "author", lc "title", lc "booktitle", lc "year"]),
   (lc "conference", [lc "author", lc "title", lc "booktitle", lc "year"]),
   (lc "manual", [lc "title"]),
   (lc "mastersthesis", [lc "author", lc "title", lc "school", lc "year"]),
   (lc "misc", []),
   (lc "phdthesis", [lc "author", lc "title", lc "school", lc "year"]),
   (lc "proceedings", [lc "title", lc "year"]),
   (lc "techreport", [lc "author", lc "title", lc "institution", lc "year"]),
   (lc "unpublished", [lc "author", lc "title", lc "note"])]

/-- Required-field specs of an entry type. -/
def requiredFieldsFor (et : List Char) : List (List Char) :=
  ((requiredFieldsTable.find? (fun p => p.1 == et)).map Prod.snd).getD []

/-- Keys of `BIB_FIELDS`, in source (dict) order. -/
def BIB_FIELDS_KEYS : List (List Char) :=
  [lc "author", lc "bookauthor", lc "editor", lc "editora/b/c", lc "editora",
   lc "editorb", lc "editorc", lc "afterword", lc "annotator", lc "commentator",
   lc "forward", lc "introduction", lc "translator", lc "holder",
   lc "institution", lc "organization", lc "publisher", lc "school", lc "journal",
   lc "title", lc "indextitle", lc "booktitle", lc "maintitle", lc "journaltitle",
   lc "issuetitle", lc "eventtitle", lc "reprinttitle", lc "series",
   lc "volume", lc "number", lc "part", lc "issue", lc "volumes", lc "chapter",
   lc "edition", lc "version", lc "pubstate",
   lc "numpages", lc "pages", lc "pagetotal", lc "(book)pagination",
   lc "date", lc "eventdate", lc "urldate", lc "year", lc "month",
   lc "location", lc "address", lc "venue",
   lc "url", lc "doi", lc "eid", lc "eprint", lc "eprinttype",
   lc "type", lc "entrysubtype",
   lc "addendum", lc "note", lc "howpublished", lc "articleno", lc "copyright",
   lc "isan", lc "isbn", lc "ismn", lc "isrn", lc "issn", lc "iswc",
   lc "label", lc "shorthand", lc "shorthandintro",
   lc "language", lc "abstract", lc "annotation", lc "file", lc "library",
   lc "execute", lc "keywords", lc "options", lc "ids", lc "related",
   lc "relatedtype", lc "relatedstring", lc "entryset", lc "crossref",
   lc "xref", lc "xdata", lc "langid", lc "langidopts", lc "gender",
   lc "presort", lc "sortkey", lc "sortname", lc "sortshorthand",
   lc "sorttitle", lc "indexsorttitle", lc "sortyear",
   lc "arxivid", lc "archiveprefix", lc "primaryclass"]

/-- The alternatives of the compiled `__field_pattern` regex
`,\s*(author|bookauthor|...)\s*=\s*`, in alternation order.  The key
`"(book)pagination"` contains regex metacharacters: as a pattern it
matches the text `bookpagination`, which is what this list records. -/
def FIELD_PATTERN_ALTS : List (List Char) :=
  BIB_FIELDS_KEYS.map (fun k => if k = lc "(book)pagination" then lc "bookpagination" else k)

/-! ## The `BibItem` record (`_bib.py`) -/

/-- One normalized field of a `BibItem`: name, value, and the per-field
`__double_braces_flags` entry. -/
structure Field where
  name : List Char
  val : List Char
  db : Bool
deriving DecidableEq

/-- The `BibItem` entity (after `__normalize_fields`). -/
structure BibItem where
  identifier : List Char
  entry_type : List Char
  fields : List Field
  label : List Char
  align : List Char
deriving DecidableEq

/-- The twelve month abbreviations, `calendar.month_abbr[1:]`. -/
def monthAbbrs : List (List Char) :=
  [lc "Jan", lc "Feb", lc "Mar", lc "Apr", lc "May", lc "Jun",
   lc "Jul", lc "Aug", lc "Sep", lc "Oct", lc "Nov", lc "Dec"]

/-- The 1-based month number of an abbreviation (what
`strptime(v, "%b").tm_mon` yields when it succeeds). -/
def monthIndex (v : List Char) : Option Nat :=
  (monthAbbrs.indexOf? (pyCapitalize v)).map (fun i => i + 1)

/-- The loop condition of the unwrapping loop of
`BibItem.__normalize_fields`. -/
def unwrapCond (v : List Char) : Bool :=
  (v.head? = some '{' && v.getLast? = some '}') ||
  (v.head? = some '"' && v.getLast? = some '"')

/-- Fuel-indexed unwrapping loop; the fuel is only a structural-recursion
device — every iteration shortens the value, so fuel `v.length` can never
run out before the loop condition fails. -/
def unwrapGo : Nat → List Char → Nat → List Char × Nat
  | 0, v, n => (v, n)
  | fuel + 1, v, n =>
    if unwrapCond v then unwrapGo fuel ((v.drop 1).dropLast) (n + 1) else (v, n)

/-- The brace/quote unwrapping loop of `BibItem.__normalize_fields`:
repeatedly remove the first and last character while the value starts with
`{` and ends with `}`, or starts and ends with `"`; count the rounds. -/
def unwrapLoop (v : List Char) (n : Nat) : List Char × Nat := unwrapGo v.length v n

/-- One iteration of the field loop of `BibItem.__normalize_fields`:
lower-case the name, strip `", "` from the value, run the unwrapping loop
(recording the double-braces flag when at least two layers were removed),
and convert a month abbreviation to its number.  `none` models the
`ValueError` that `strptime` raises when the month value is the empty
string (which *is* an element of `calendar.month_abbr`). -/
def normalizeField (k v : List Char) : Option Field :=
  let k' := lowerCL (stripWs k)
  let p := unwrapLoop (stripCS v) 0
  let db : Bool := decide (p.2 ≥ 2)
  if k' = lc "month" ∧ pyCapitalize p.1 ∈ ([] : List Char) :: monthAbbrs then
    match monthIndex p.1 with
    | some m => some ⟨k', lc (toString m), db⟩
    | none => none
  else some ⟨k', p.1, db⟩

/-- Ordered-dict insertion: an existing key is updated in place, a new key
is appended. -/
def fdSet (fd : List Field) (f : Field) : List Field :=
  if fd.any (fun g => g.name == f.name) then
    fd.map (fun g => if g.name == f.name then f else g)
  else fd ++ [f]

/-- The field loop of `BibItem.__normalize_fields` over an ordered mapping
(associative list). -/
def normalizeFieldsAux (acc : List Field) : List (List Char × List Char) → Option (List Field)
  | [] => some acc
  | (k, v) :: rest =>
    match normalizeField k v with
    | none => none
    | some f => normalizeFieldsAux (fdSet acc f) rest

/-- Whether the normalized fields contain a key (`rf in self.__fields`). -/
def hasFieldName (fs : List Field) (k : List Char) : Bool :=
  fs.any (fun f => f.name == k)

/-- `BibItem.check_required_fields`: for each spec item, count how many of
its `\w+` words are present; an item containing `+` requires 1 or 2, any
other item requires exactly 1.  The error value is the Python
`AssertionError` message of the first failing item. -/
def checkRequiredAux (fs : List Field) : List (List Char) → Except (List Char) Unit
  | [] => Except.ok ()
  | item :: rest =>
    let n := ((reWords item).filter (fun w => hasFieldName fs w)).length
    if '+' ∈ item then
      if n = 1 ∨ n = 2 then checkRequiredAux fs rest
      else Except.error (lc "required field(s) \"" ++ item ++ lc "\" is (are) missing")
    else
      if n = 1 then checkRequiredAux fs rest
      else Except.error (lc "required field \"" ++ item ++ lc "\" is missing")

/-- `BibItem.check_required_fields` for a given entry type. -/
def checkRequiredFields (et : List Char) (fs : List Field) : Except (List Char) Unit :=
  checkRequiredAux fs (requiredFieldsFor et)

/-- The four legal `align` values. -/
def validAligns : List (List Char) :=
  [lc "middle", lc "left", lc "left-middle", lc "left_middle"]

/-- `BibItem.__init__`: lower-case and validate the entry type, normalize
the fields, default the label to the identifier, validate `align`, and
optionally run the required-field check.  `none` models any raised
`AssertionError`/`ValueError`. -/
def mkBibItem (identifier etype : List Char) (fields : List (List Char × List Char))
    (label : Option (List Char)) (align : List Char) (checkFields : Bool) : Option BibItem :=
  let et := lowerCL etype
  if et ∈ ENTRY_TYPES then
    match normalizeFieldsAux [] fields with
    | none => none
    | some fs =>
      if checkFields ∧ ¬ (checkRequiredFields et fs).isOk then none
      else if align ∈ validAligns then
        some ⟨identifier, et, fs, label.getD identifier, align⟩
      else none
  else none

/-! ## Rendering (`BibItem.__str__`) -/

/-- Rendered value of one field: one structural brace pair, plus one more
pair when the double-braces flag is set. -/
def renderFieldVal (f : Field) : List Char :=
  let v := '{' :: (f.val ++ ['}'])
  if f.db then '{' :: (v ++ ['}']) else v

/-- Append the separating comma to every rendered field but the last. -/
def addCommas : List (List Char × List Char) → List (List Char × List Char)
  | [] => []
  | [p] => [p]
  | p :: q :: rest => (p.1, p.2 ++ [',']) :: addCommas (q :: rest)

/-- `max([len(k) for k in field_dict.keys()])` for a non-empty list. -/
def maxKeyLen (fs : List Field) : Nat :=
  fs.foldl (fun m f => max m f.name.length) 0

/-- `BibItem.__str__`.  `none` models the `ValueError` that `max` raises on
an empty field mapping (and the `NameError` on an invalid `align`, which
`__init__` normally rules out). -/
def render (b : BibItem) : Option (List Char) :=
  let header := '@' :: (b.entry_type ++ '{' :: (b.label ++ [',']))
  if b.fields = [] then none
  else
    let fd := addCommas (b.fields.map (fun f => (f.name, renderFieldVal f)))
    let mkl := maxKeyLen b.fields
    if b.align = lc "middle" then
      some (joinChar '\n'
        (header :: (fd.map (fun p => spaces (2 + mkl - p.1.length) ++ p.1 ++ lc " = " ++ p.2)
          ++ [['}']])))
    else if b.align = lc "left" then
      some (joinChar '\n'
        (header :: (fd.map (fun p => spaces 2 ++ p.1 ++ lc " = " ++ p.2) ++ [['}']])))
    else if b.align = lc "left-middle" ∨ b.align = lc "left_middle" then
      some (joinChar '\n'
        (header :: (fd.map (fun p => spaces 2 ++ p.1 ++ spaces (1 + mkl - p.1.length) ++ lc "= " ++ p.2)
          ++ [['}']])))
    else none

/-! ## Equality (`BibItem.__eq__`) -/

/-- Value of a field by (normalized) name. -/
def getField (b : BibItem) (k : List Char) : Option (List Char) :=
  (b.fields.find? (fun f => f.name == k)).map Field.val

/-- Title normalization used by strict equality: punctuation to spaces,
lower-case, strip, collapse whitespace runs. -/
def titleNorm (t : List Char) : List Char :=
  collapseWs (stripWs (lowerCL (t.map (fun c => if isWordChar c || isPySpace c then c else ' '))))

/-- Number of word characters, `len(re.sub("[^\\w]", "", s))`. -/
def wordCharCount (l : List Char) : Nat := (l.filter isWordChar).length

/-- Last non-trivial whitespace token of the text before the first `"and"`
of an author string; `none` models the `IndexError` on `[-1]` when no
token has more than one word character. -/
def firstAuthorToken (author : List Char) : Option (List Char) :=
  ((wsSplit (stripWs (beforeFirst (lc "and") author))).filter
    (fun s => decide (wordCharCount s > 1))).getLast?

/-- Tail of `BibItem.__eq__`: the final label comparison guarded by the
`check_again` counter. -/
def pyEqLabel (checkAgain : Nat) (a b : BibItem) : Option Bool :=
  if checkAgain = 0 ∧ a.label ≠ b.label then some false else some true

/-- Author comparison step of `BibItem.__eq__` (strict); `none` models the
`IndexError` raised while computing an author token. -/
def pyEqAuthors (checkAgain : Nat) (a b : BibItem) : Option Bool :=
  match getField a (lc "author"), getField b (lc "author") with
  | some ua, some ub =>
    (match firstAuthorToken ua, firstAuthorToken ub with
     | some x, some y => if x ≠ y then some false else pyEqLabel checkAgain a b
     | _, _ => none)
  | none, none => pyEqLabel (checkAgain - 1) a b
  | _, _ => some false

/-- `BibItem.__eq__` (both records are of the same runtime type here, so
the `type(other) != type(self)` guard is vacuous). -/
def pyEq (strict : Bool) (a b : BibItem) : Option Bool :=
  if a.entry_type ≠ b.entry_type then some false
  else if ¬ strict then some (a.label == b.label)
  else
    match getField a (lc "title"), getField b (lc "title") with
    | some ta, some tb =>
      if titleNorm ta ≠ titleNorm tb then some false else pyEqAuthors 2 a b
    | none, none => pyEqAuthors 1 a b
    | _, _ => some false

/-! ## Free-text parsing (`BibLookup._to_bib_item`, string branch) -/

/-- Length of the longest prefix satisfying `p`. -/
def countWhile (p : Char → Bool) : List Char → Nat
  | [] => 0
  | c :: cs => if p c then countWhile p cs + 1 else 0

/-- Join with a multi-character separator (Python `sep.join`). -/
def joinSep (sep : List Char) : List (List Char) → List Char
  | [] => []
  | [x] => x
  | x :: y :: rest => x ++ sep ++ joinSep sep (y :: rest)

/-- Match `alt ++ \s* ++ "=" ++ \s*` at the head, returning the matched
length (the three pieces of the tail of `__field_pattern` after the
alternation is chosen). -/
def altMatchLen (alt : List Char) (cs : List Char) : Option Nat :=
  if alt.isPrefixOf cs then
    let cs1 := cs.drop alt.length
    let w1 := countWhile isPySpace cs1
    match cs1.drop w1 with
    | '=' :: cs3 => some (alt.length + w1 + 1 + countWhile isPySpace cs3)
    | _ => none
  else none

/-- First alternative (in alternation order) whose full pattern completes,
as Python's backtracking alternation does. -/
def altsMatchLen : List (List Char) → List Char → Option Nat
  | [], _ => none
  | a :: rest, cs =>
    match altMatchLen a cs with
    | some n => some n
    | none => altsMatchLen rest cs

/-- Match of the compiled `__field_pattern` (`,\s*(alt|...)\s*=\s*`) at the
head of `l`; returns the length matched *after* the leading comma. -/
def fieldMatchTail (l : List Char) : Option Nat :=
  match l with
  | [] => none
  | c :: cs =>
    if c = ',' then
      let w := countWhile isPySpace cs
      (altsMatchLen FIELD_PATTERN_ALTS (cs.drop w)).map (fun n => w + n)
    else none

/-- `re.finditer` start positions of `__field_pattern` (non-overlapping,
scanning restarts after each match's end); `skip > 0` means the scan is
still inside the previous match. -/
def scanFSGo (i skip : Nat) : List Char → List Nat
  | [] => []
  | c :: cs =>
    if skip > 0 then scanFSGo (i + 1) (skip - 1) cs
    else
      match fieldMatchTail (c :: cs) with
      | some m => i :: scanFSGo (i + 1) m cs
      | none => scanFSGo (i + 1) 0 cs

/-- `re.search(__field_pattern, ·)`. -/
def fieldSearch : List Char → Bool
  | [] => false
  | c :: cs => (fieldMatchTail (c :: cs)).isSome || fieldSearch cs

/-- Slices of `res` between consecutive split indices, plus the final
slice (`res[si[idx]:si[idx+1]]` … `res[si[-1]:]`). -/
def linesFrom (res : List Char) : List Nat → List (List Char)
  | [] => []
  | [i] => [res.drop i]
  | i :: j :: rest => ((res.drop i).take (j - i)) :: linesFrom res (j :: rest)

/-- Index of the last occurrence of `c`, if any. -/
def lastIdxOf (c : Char) : List Char → Option Nat
  | [] => none
  | a :: as =>
    match lastIdxOf c as with
    | some i => some (i + 1)
    | none => if a = c then some 0 else none

/-- `re.sub("\\}[^\\w]+\\}", "}", ·)`: at each `}`, greedily consume
non-word characters and close at the furthest `}` at offset ≥ 2;
non-overlapping, left to right.  `skip > 0` means the scan is still
inside the previous match (whose replacement was already emitted). -/
def braceSubGo (skip : Nat) : List Char → List Char
  | [] => []
  | c :: cs =>
    if skip > 0 then braceSubGo (skip - 1) cs
    else if c = '}' then
      match lastIdxOf '}' (cs.takeWhile (fun d => ! isWordChar d)) with
      | some j => if 1 ≤ j then '}' :: braceSubGo (j + 1) cs else '}' :: braceSubGo 0 cs
      | none => '}' :: braceSubGo 0 cs
    else c :: braceSubGo 0 cs

/-- `re.sub("\\}[^\\w]+\\}", "}", ·)`. -/
def braceSub (l : List Char) : List Char := braceSubGo 0 l

/-- `re.sub("\\{[^\\{\\}]*\\}", "", ·)`: delete innermost balanced brace
groups, left to right; `skip > 0` means the scan is inside a deleted
group. -/
def removeBalancedGo (skip : Nat) : List Char → List Char
  | [] => []
  | c :: cs =>
    if skip > 0 then removeBalancedGo (skip - 1) cs
    else if c = '{' then
      let m := countWhile (fun d => d ≠ '{' && d ≠ '}') cs
      (match cs.drop m with
       | '}' :: _ => removeBalancedGo (m + 1) cs
       | _ => '{' :: removeBalancedGo 0 cs)
    else c :: removeBalancedGo 0 cs

/-- `re.sub("\\{[^\\{\\}]*\\}", "", ·)`. -/
def removeBalanced (l : List Char) : List Char := removeBalancedGo 0 l

/-- Modelled collaborator: `BeautifulSoup(v, "html.parser").get_text()` is
a third-party HTML stripper external to this repository.  The model
removes `<...>` tag spans and decodes the five standard entities; it is
the identity on text containing neither `<` nor `&`, which is the only
shape of value it receives in the theorems below.  `skip > 0` means the
scan is inside an already-handled span. -/
def htmlGetTextGo (skip : Nat) : List Char → List Char
  | [] => []
  | c :: cs =>
    if skip > 0 then htmlGetTextGo (skip - 1) cs
    else if c = '<' then
      let m := countWhile (fun d => d ≠ '>') cs
      (match cs.drop m with
       | '>' :: _ => htmlGetTextGo (m + 1) cs
       | _ => '<' :: htmlGetTextGo 0 cs)
    else if c = '&' then
      if (lc "amp;").isPrefixOf cs then '&' :: htmlGetTextGo 4 cs
      else if (lc "lt;").isPrefixOf cs then '<' :: htmlGetTextGo 3 cs
      else if (lc "gt;").isPrefixOf cs then '>' :: htmlGetTextGo 3 cs
      else if (lc "quot;").isPrefixOf cs then '"' :: htmlGetTextGo 5 cs
      else if (lc "apos;").isPrefixOf cs then '\'' :: htmlGetTextGo 5 cs
      else '&' :: htmlGetTextGo 0 cs
    else c :: htmlGetTextGo 0 cs

/-- Modelled `BeautifulSoup(·, "html.parser").get_text()`. -/
def htmlGetText (l : List Char) : List Char := htmlGetTextGo 0 l

/-- Python `str.replace` for a non-empty pattern: leftmost,
non-overlapping; `skip > 0` means the scan is inside the previous match
(whose replacement was already emitted). -/
def pyReplaceGo (pat rep : List Char) (skip : Nat) : List Char → List Char
  | [] => []
  | c :: cs =>
    if skip > 0 then pyReplaceGo pat rep (skip - 1) cs
    else if pat ≠ [] ∧ pat.isPrefixOf (c :: cs) then
      rep ++ pyReplaceGo pat rep (pat.length - 1) cs
    else c :: pyReplaceGo pat rep 0 cs

/-- Python `str.replace` for a non-empty pattern. -/
def pyReplace (pat rep : List Char) (l : List Char) : List Char :=
  pyReplaceGo pat rep 0 l

/-- The underscore escape applied to `title` values:
`v.replace("_", "\\_").replace("\\\\_", "\\_")` (raw Python
`.replace("_", r"\_").replace(r"\\_", r"\_")`). -/
def escapeUnderscore (l : List Char) : List Char :=
  pyReplace (lc "\\\\_") (lc "\\_") (pyReplace (lc "_") (lc "\\_") l)

/-- The ampersand escape applied to every field value:
`.replace("&", r"\&").replace(r"\\&", r"\&")`. -/
def escapeAmp (l : List Char) : List Char :=
  pyReplace (lc "\\\\&") (lc "\\&") (pyReplace (lc "&") (lc "\\&") l)

/-- `key, *val = line.split("="); val = "=".join(val)`: split at the first
`=`; a line without `=` yields an empty value. -/
def splitFirstEq : List Char → List Char × List Char
  | [] => ([], [])
  | '=' :: cs => ([], cs)
  | c :: cs => ((c :: (splitFirstEq cs).1), (splitFirstEq cs).2)

/-- Ordered-dict assignment on an associative list. -/
def odSet (fd : List (List Char × List Char)) (k v : List Char) :
    List (List Char × List Char) :=
  if fd.any (fun p => p.1 == k) then fd.map (fun p => if p.1 == k then (k, v) else p)
  else fd ++ [(k, v)]

/-- Ordered-dict lookup. -/
def odGet (fd : List (List Char × List Char)) (k : List Char) : Option (List Char) :=
  (fd.find? (fun p => p.1 == k)).map Prod.snd

/-- `field_dict[list(field_dict.keys())[-1]] += " " + txt`. -/
def appendToLast (fd : List (List Char × List Char)) (txt : List Char) :
    List (List Char × List Char) :=
  match fd with
  | [] => []
  | [p] => [(p.1, p.2 ++ ' ' :: txt)]
  | p :: q :: rest => p :: appendToLast (q :: rest) txt

/-- The `for line in lines[1:-1]` loop: recognized keys start a new field,
anything else is appended to the previous field's value; `none` models the
`IndexError` when a continuation line arrives before any field. -/
def buildFieldDict (acc : List (List Char × List Char)) :
    List (List Char) → Option (List (List Char × List Char))
  | [] => some acc
  | line :: rest =>
    let p := splitFirstEq line
    if lowerCL (stripWs p.1) ∈ BIB_FIELDS_KEYS then
      buildFieldDict (odSet acc (stripWs p.1) p.2) rest
    else
      match acc with
      | [] => none
      | _ => buildFieldDict (appendToLast acc (stripWs line)) rest

/-- The header pattern `^@(?P<entry_type>\w+)\{(?P<label>[^,]+)`. -/
def headerMatch (l : List Char) : Option (List Char × List Char) :=
  match l with
  | '@' :: cs =>
    let w := cs.takeWhile isWordChar
    if w = [] then none
    else
      match cs.drop w.length with
      | '{' :: cs2 =>
        let lab := cs2.takeWhile (fun c => c ≠ ',')
        if lab = [] then none else some (w, lab)
      | _ => none
  | _ => none

/-- The per-value post-processing of `_to_bib_item` (source lines
855–869): drop one unmatched trailing `}`, take off one wrapping pair of
quotes or braces (braces checked after deleting balanced inner groups),
strip HTML, escape `&`. -/
def processValue (v : List Char) : List Char :=
  let d := if v.getLast? = some '}' ∧ v.head? ≠ some '{' then stripWs v.dropLast else v
  let tmp := stripWs (removeBalanced v)
  let d :=
    if v.head? = some '"' ∧ v.getLast? = some '"' then (v.drop 1).dropLast
    else if v.head? = some '\'' ∧ v.getLast? = some '\'' then (v.drop 1).dropLast
    else if (tmp.head? = some '{' ∧ tmp.getLast? = some '}') ∨ tmp = [] then (v.drop 1).dropLast
    else d
  escapeAmp (htmlGetText d)

/-- The default `ordering` configuration. -/
def DEFAULT_ORDERING : List (List Char) :=
  [lc "title", lc "author", lc "journal", lc "booktitle"]

/-- Field reordering of `_to_bib_item`: the priority list first, then the
remaining fields in arrival order. -/
def reorderFields (fd : List (List Char × List Char)) : List (List Char × List Char) :=
  let ordering := DEFAULT_ORDERING ++ (fd.map Prod.fst).filter (fun k => k ∉ DEFAULT_ORDERING)
  (ordering.filter (fun k => (odGet fd k).isSome)).filterMap
    (fun k => (odGet fd k).map (fun v => (k, v)))

/-- The free-text branch of `BibLookup._to_bib_item`, with the arguments
`read_bib_file` supplies (`ignore_fields=[]`, no label override, default
`align="middle"`, `capitalize_title` false, `identifier=None`).  `none`
models any exception escaping the parse. -/
def toBibItemText (t : List Char) : Option BibItem :=
  let res := collapseWs t
  let si : List Nat := 0 :: scanFSGo 0 0 (lowerCL res)
  let lines1 := linesFrom res si
  let lines2 :=
    if fieldSearch (lowerCL (lines1.getLastD [])) then lines1 ++ [['}']] else lines1
  let lines3 := lines2.filterMap
    (fun ln => let s := stripCS ln; if s = [] then none else some (braceSub s))
  match lines3 with
  | [] => none
  | l0 :: restLines =>
    match headerMatch l0 with
    | none => none
    | some (etype, lab) =>
      match buildFieldDict [] restLines.dropLast with
      | none => none
      | some fd0 =>
        let fd1 :=
          match odGet fd0 (lc "title") with
          | some tv => odSet fd0 (lc "title") (escapeUnderscore tv)
          | none => fd0
        let fd2 := fd1.foldl (fun acc p => odSet acc (lowerCL p.1) (stripCS p.2)) []
        let fd3 := fd2.map (fun p => (p.1, processValue p.2))
        mkBibItem lab etype (reorderFields fd3) (some lab) (lc "middle") false

/-! ## `BibLookup.read_bib_file` -/

/-- The `^@\s*([a-zA-Z_]+)` block-type pattern of `read_bib_file`. -/
def typeMatch (l : List Char) : Option (List Char) :=
  match l with
  | '@' :: cs =>
    let cs1 := cs.drop (countWhile isPySpace cs)
    let w := cs1.takeWhile (fun c => c.isAlpha || c = '_')
    if w = [] then none else some w
  | _ => none

/-- The administrative block types skipped by `read_bib_file`; the check
is `re.search("string|preamble|comment|bstctl|alias", w)`, i.e. a
substring test. -/
def IGNORED_SUBS : List (List Char) :=
  [lc "string", lc "preamble", lc "comment", lc "bstctl", lc "alias"]

/-- Whether a block header word denotes an ignored administrative entry. -/
def isIgnoredType (w : List Char) : Bool :=
  IGNORED_SUBS.any (fun s => containsSub (lowerCL w) s)

/-- Parse one gathered block: skipped silently when the type pattern fails
or names an administrative type, otherwise run `_to_bib_item` on the
`",\n"`-joined lines. -/
def flushBlock (items : List BibItem) (buf : List (List Char)) : Option (List BibItem) :=
  match typeMatch (buf.headD []) with
  | some w =>
    if isIgnoredType w then some items
    else (toBibItemText (joinSep (lc ",\n") buf)).map (fun b => items ++ [b])
  | none => some items

/-- The line loop of `read_bib_file` (`cache=False`): strip `", "`, skip
`%` comments and blanks, flush the gathered block at each new `@` line and
at the end. -/
def readLoop (items : List BibItem) (buf : List (List Char)) :
    List (List Char) → Option (List BibItem)
  | [] => if buf = [] then some items else flushBlock items buf
  | line :: more =>
    let s := stripCS line
    if s.head? = some '%' ∨ s = [] then readLoop items buf more
    else if s.head? = some '@' then
      if buf = [] then readLoop items [s] more
      else
        match flushBlock items buf with
        | none => none
        | some items2 => readLoop items2 [s] more
    else readLoop items (buf ++ [s]) more

/-- Split on `'\n'` (Python `str.splitlines` for the `\n`-separated text
produced by `render`; the one divergence — a trailing empty piece when the
text ends in `\n` — is skipped by the loop as a blank line anyway). -/
def splitNl (l : List Char) : List (List Char) :=
  match l with
  | [] => [[]]
  | c :: cs =>
    match splitNl cs with
    | [] => [[]]
    | h :: t => if c = '\n' then [] :: h :: t else (c :: h) :: t

/-- `read_bib_file` over the text of a `.bib` file. -/
def readBib (l : List Char) : Option (List BibItem) := readLoop [] [] (splitNl l)

/-! ## Identifier classification (`BibLookup._obtain_feed_content`) -/

/-- Strip a literal pattern from the head. -/
def stripLit (pat s : List Char) : Option (List Char) :=
  if pat.isPrefixOf s then some (s.drop pat.length) else none

/-- Strip `word` followed by `\s*:\s*` from the head (the
`xxx[\s]*:[\s]*` prefix forms). -/
def stripColonForm (word s : List Char) : Option (List Char) :=
  match stripLit word s with
  | some s1 =>
    (match s1.drop (countWhile isPySpace s1) with
     | ':' :: s3 => some (s3.drop (countWhile isPySpace s3))
     | _ => none)
  | none => none

/-- Core of the DOI pattern, `10\..+\/.+$`: after `10.` there is a `/`
with at least one character on each side. -/
def doiCore (s : List Char) : Bool :=
  (lc "10.").isPrefixOf s && (((s.drop 3).drop 1).dropLast.contains '/')

/-- The expansions of `(?:https?:\/\/)?(?:dx\.)?doi\.org\/`; at most one
matches a given head. -/
def doiUrlRemainders (s : List Char) : List (List Char) :=
  [lc "doi.org/", lc "dx.doi.org/", lc "http://doi.org/", lc "http://dx.doi.org/",
   lc "https://doi.org/", lc "https://dx.doi.org/"].filterMap (fun p => stripLit p s)

/-- `re.search(doi_pattern, ·)` — the pattern is anchored `^...$`, with an
optional prefix tried by backtracking. -/
def doiMatch (s : List Char) : Bool :=
  doiCore s || ((stripColonForm (lc "doi") s).map doiCore).getD false
    || (doiUrlRemainders s).any doiCore

/-- `pmc\d+(?:\.\d+)?` anchored to the end. -/
def pmcCore (t : List Char) : Bool :=
  match stripLit (lc "pmc") t with
  | some r =>
    let d1 := countWhile Char.isDigit r
    decide (d1 > 0) &&
      (match r.drop d1 with
       | [] => true
       | '.' :: r2 => decide (r2 ≠ []) && r2.all Char.isDigit
       | _ => false)
  | none => false

/-- Core of the PubMed pattern, `(?:\d+|pmc\d+(?:\.\d+)?)(?:\/)?$`. -/
def pmCore (s : List Char) : Bool :=
  let t := if s.getLast? = some '/' then s.dropLast else s
  (decide (t ≠ []) && t.all Char.isDigit) || pmcCore t

/-- The expansions of the PubMed URL prefix alternatives. -/
def pmUrlRemainders (s : List Char) : List (List Char) :=
  [lc "pubmed.ncbi.nlm.nih.gov/", lc "www.ncbi.nlm.nih.gov/pubmed/",
   lc "http://pubmed.ncbi.nlm.nih.gov/", lc "http://www.ncbi.nlm.nih.gov/pubmed/",
   lc "https://pubmed.ncbi.nlm.nih.gov/",
   lc "https://www.ncbi.nlm.nih.gov/pubmed/"].filterMap (fun p => stripLit p s)

/-- `re.search(pm_pattern, ·)`. -/
def pmMatch (s : List Char) : Bool :=
  pmCore s || ((stripColonForm (lc "pmid") s).map pmCore).getD false
    || ((stripColonForm (lc "pmcid") s).map pmCore).getD false
    || (pmUrlRemainders s).any pmCore

/-- Match `arxiv.org/` at the head — the `.` before `org` is an unescaped
wildcard in the source pattern, so any character is accepted there. -/
def stripArxivHost (s : List Char) : Option (List Char) :=
  match stripLit (lc "arxiv") s with
  | some (_ :: r1) => stripLit (lc "org/") r1
  | _ => none

/-- Match `(?:https?:\/\/)?arxiv.org\/` at the head. -/
def stripArxivOrg (s : List Char) : Option (List Char) :=
  match stripArxivHost s with
  | some r => some r
  | none =>
    match stripLit (lc "http://") s with
    | some r => stripArxivHost r
    | none =>
      match stripLit (lc "https://") s with
      | some r => stripArxivHost r
      | none => none

/-- All remainders after one match of the arXiv prefix pattern
`((?:(?:(?:https?:\/\/)?arxiv.org\/)?abs\/)|(arxiv[\s]*:[\s]*))` at the
head, in backtracking order. -/
def arxivPreRemainders (s : List Char) : List (List Char) :=
  (match stripArxivOrg s with
   | some r => ((stripLit (lc "abs/") r).toList)
   | none => [])
  ++ (stripLit (lc "abs/") s).toList
  ++ (stripColonForm (lc "arxiv") s).toList

/-- Core of the arXiv pattern,
`(?:([\w\-]+\/\d+)|(\d+\.\d+(v(\d+))?))$`. -/
def arxivCore (s : List Char) : Bool :=
  (let m := countWhile (fun c => isWordChar c || c = '-') s
   decide (m > 0) &&
     (match s.drop m with
      | '/' :: d => decide (d ≠ []) && d.all Char.isDigit
      | _ => false))
  ||
  (let d1 := countWhile Char.isDigit s
   decide (d1 > 0) &&
     (match s.drop d1 with
      | '.' :: r =>
        let d2 := countWhile Char.isDigit r
        decide (d2 > 0) &&
          (match r.drop d2 with
           | [] => true
           | 'v' :: r2 => decide (r2 ≠ []) && r2.all Char.isDigit
           | _ => false)
      | _ => false))

/-- `re.search(arxiv_pattern, ·)`. -/
def arxivMatch (s : List Char) : Bool :=
  arxivCore s || (arxivPreRemainders s).any arxivCore

/-- Remainder after the leftmost-alternative match of the arXiv prefix
pattern at the head (the semantics `re.sub` uses). -/
def arxivPreRest (s : List Char) : Option (List Char) := (arxivPreRemainders s).head?

/-- Remainder after a match of `doi_pattern_prefix` at the head. -/
def doiPreRest (s : List Char) : Option (List Char) :=
  match stripColonForm (lc "doi") s with
  | some r => some r
  | none => (doiUrlRemainders s).head?

/-- Remainder after a match of `pm_pattern_prefix` at the head. -/
def pmPreRest (s : List Char) : Option (List Char) :=
  match (pmUrlRemainders s).head? with
  | some r => some r
  | none =>
    match stripColonForm (lc "pmid") s with
    | some r => some r
    | none => stripColonForm (lc "pmcid") s

/-- `re.sub(pattern, "", ·)` for a prefix-matcher `f` that returns the
remainder after a match at the head (none of the patterns used here can
match the empty string); `skip > 0` means the scan is inside a deleted
match. -/
def subScanGo (f : List Char → Option (List Char)) (skip : Nat) : List Char → List Char
  | [] => []
  | c :: cs =>
    if skip > 0 then subScanGo f (skip - 1) cs
    else
      match f (c :: cs) with
      | some r => subScanGo f (cs.length - r.length) cs
      | none => c :: subScanGo f 0 cs

/-- `re.sub(pattern, "", ·)` for a head matcher `f`. -/
def subScan (f : List Char → Option (List Char)) (l : List Char) : List Char :=
  subScanGo f 0 l

/-- `re.sub(doi_pattern_prefix, "", ·)`. -/
def subDoiPre : List Char → List Char := subScan doiPreRest

/-- `re.sub(pm_pattern_prefix, "", ·)`. -/
def subPmPre : List Char → List Char := subScan pmPreRest

/-- `re.sub(arxiv_pattern_prefix, "", ·)`. -/
def subArxivPre : List Char → List Char := subScan arxivPreRest

/-- `re.sub("v\\d+", "", ·)`: delete every `v` followed by digits;
`skip > 0` means the scan is inside a deleted match. -/
def subVdigitsGo (skip : Nat) : List Char → List Char
  | [] => []
  | c :: cs =>
    if skip > 0 then subVdigitsGo (skip - 1) cs
    else if c = 'v' then
      let d := countWhile Char.isDigit cs
      if d > 0 then subVdigitsGo d cs else 'v' :: subVdigitsGo 0 cs
    else c :: subVdigitsGo 0 cs

/-- `re.sub("v\\d+", "", ·)`. -/
def subVdigits (s : List Char) : List Char := subVdigitsGo 0 s

/-- Python `str.strip("/")`. -/
def stripSlash : List Char → List Char := pyStripChars (fun c => c = '/')

/-- The classification core of `BibLookup._obtain_feed_content`: the
returned category and simplified identifier.  (The feed-content dictionary
— URL, headers, timeout — is transport plumbing and is not modelled.)
With `arxiv2doi` set, the arXiv branch recurses on the synthesized DOI
`10.48550/arXiv.<id>`, which always lands in the DOI branch. -/
def obtainFeedCategory (identifier : List Char) (arxiv2doi : Bool) :
    List Char × List Char :=
  let idtf := stripWs (lowerCL identifier)
  if doiMatch idtf then (lc "doi", stripSlash (subDoiPre idtf))
  else if pmMatch idtf then (lc "pm", stripSlash (subPmPre idtf))
  else if arxivMatch idtf then
    let a := subVdigits (stripSlash (subArxivPre idtf))
    if arxiv2doi then
      let d := lc "10.48550/arxiv." ++ a
      (lc "doi", stripSlash (subDoiPre d))
    else (lc "arxiv", a)
  else (lc "error", idtf)

/-! ## `BibLookup._handle_arxiv` (pure tail) -/

/-- A parsed arXiv feed entry — what `feedparser` hands to
`_handle_arxiv` (the HTTP fetch and the feed parser are external
collaborators). -/
structure ArxivFeedEntry where
  feedId : List Char
  title : List Char
  authorNames : List (List Char)
  pubYear : Nat
  pubMonth : Nat

/-- `re.sub("[vV]\\d+$", "", ·)`: strip one trailing version suffix. -/
def stripTrailingVer (s : List Char) : List Char :=
  let r := s.reverse
  let d := countWhile Char.isDigit r
  if d > 0 then
    match r.drop d with
    | 'v' :: rest => rest.reverse
    | 'V' :: rest => rest.reverse
    | _ => s
  else s

/-- The record-building tail of `BibLookup._handle_arxiv` (source lines
707–727).  `none` models the `Not Found` sentinel on title `Error` and
the `IndexError` on an empty author list. -/
def handleArxiv (e : ArxivFeedEntry) : Option (List (List Char × List Char)) :=
  let title := collapseWs e.title
  if title = lc "Error" then none
  else
    let arxivId := afterLast (lc "arxiv.org/abs/") e.feedId
    match e.authorNames.head? with
    | none => none
    | some a0 =>
      some [(lc "title", title),
            (lc "author", joinSep (lc " and ") e.authorNames),
            (lc "year", lc (toString e.pubYear)),
            (lc "month", lc (toString e.pubMonth)),
            (lc "journal", lc "arXiv preprint arXiv:" ++ arxivId),
            (lc "label", lowerCL (afterLast (lc " ") a0) ++ lc (toString e.pubYear)
              ++ '_' :: arxivId),
            (lc "entry_type", lc "article"),
            (lc "doi", stripTrailingVer (lc "10.48550/arXiv." ++ arxivId))]

/-! ## Cache insertion (`BibLookup.__call__`, lines 489–496) -/

/-- Ordered-dict assignment followed by the FIFO eviction
`if len(cache) > cache_limit: cache.popitem(last=False)`. -/
def cacheStep (limit : Nat) (m : List (List Char × List Char)) (k v : List Char) :
    List (List Char × List Char) :=
  let m2 := odSet m k v
  if m2.length > limit then m2.drop 1 else m2

/-! ## Claim C10: unchecked brace stripping -/

theorem unwrapGo_nil (fuel n : Nat) : unwrapGo fuel [] n = ([], n) := by
  cases fuel <;> simp [unwrapGo, unwrapCond]

theorem unwrapGo_fuel_irrel :
    ∀ (fuel₁ fuel₂ : Nat) (v : List Char) (n : Nat),
      v.length ≤ fuel₁ → v.length ≤ fuel₂ → unwrapGo fuel₁ v n = unwrapGo fuel₂ v n := by
  intro fuel₁
  induction fuel₁ with
  | zero =>
    intro fuel₂ v n h1 _
    have hv : v = [] := List.eq_nil_of_length_eq_zero (Nat.le_zero.mp h1)
    subst hv
    rw [unwrapGo_nil, unwrapGo_nil]
  | succ f ih =>
    intro fuel₂ v n h1 h2
    cases fuel₂ with
    | zero =>
      have hv : v = [] := List.eq_nil_of_length_eq_zero (Nat.le_zero.mp h2)
      subst hv
      rw [unwrapGo_nil, unwrapGo_nil]
    | succ g =>
      by_cases hc : unwrapCond v
      · have hv : v ≠ [] := by
          intro he
          rw [he] at hc
          simp [unwrapCond] at hc
        have hlen : ((v.drop 1).dropLast).length ≤ v.length - 1 := by
          simp only [List.length_dropLast, List.length_drop]
          omega
        have hvl : 1 ≤ v.length := by
          cases v with
          | nil => exact absurd rfl hv
          | cons a as => simp
        simp only [unwrapGo, hc, if_true]
        exact ih g ((v.drop 1).dropLast) (n + 1) (by omega) (by omega)
      · simp only [unwrapGo, hc]
        simp

/-- C10: during `BibItem` construction, value normalization removes the
first and last characters whenever the value starts with `{` and ends with
`}` (or both ends are `"`), with no check that the two delimiters form a
matching pair; on the value `{IDH1} and {epilepsy}` — whose outer braces
belong to different groups — the stored value becomes
`IDH1} and {epilepsy`. -/
theorem C10_unchecked_brace_stripping :
    (∀ (v : List Char) (n : Nat), v.head? = some '{' → v.getLast? = some '}' →
      unwrapLoop v n = unwrapLoop ((v.drop 1).dropLast) (n + 1)) ∧
    mkBibItem (lc "doi") (lc "article")
        [(lc "note", lc "\x7bIDH1\x7d and \x7bepilepsy\x7d")]
        (some (lc "x")) (lc "middle") false =
      some ⟨lc "doi", lc "article", [⟨lc "note", lc "IDH1\x7d and \x7bepilepsy", false⟩],
        lc "x", lc "middle"⟩ := by
  constructor
  · intro v n h1 h2
    have hv : v ≠ [] := by
      intro he
      rw [he] at h1
      simp at h1
    have hc : unwrapCond v = true := by
      simp [unwrapCond, h1, h2]
    have hvl : 1 ≤ v.length := by
      cases v with
      | nil => exact absurd rfl hv
      | cons a as => simp
    have hlen : ((v.drop 1).dropLast).length ≤ v.length - 1 := by
      simp only [List.length_dropLast, List.length_drop]
      omega
    unfold unwrapLoop
    have hsplit : v.length = (v.length - 1) + 1 := by omega
    rw [hsplit]
    simp only [unwrapGo, hc, if_true]
    exact unwrapGo_fuel_irrel (v.length - 1) ((v.drop 1).dropLast).length
      ((v.drop 1).dropLast) (n + 1) (by omega) (le_refl _)
  · decide

/-- C10 witness: the unconditional stripping step evaluated on the
counter-pair value itself. -/
theorem C10_unchecked_brace_stripping_witness :
    unwrapLoop (lc "\x7bIDH1\x7d and \x7bepilepsy\x7d") 0 =
      unwrapLoop ((lc "\x7bIDH1\x7d and \x7bepilepsy\x7d").drop 1).dropLast 1 :=
  C10_unchecked_brace_stripping.1 (lc "\x7bIDH1\x7d and \x7bepilepsy\x7d") 0
    (by decide) (by decide)

/-! ## Claim C5: month normalization -/

/-- The structured mapping of the `wen2017` example, fed to `BibItem`
construction. -/
def wenItem : Option BibItem :=
  mkBibItem (lc "arXiv:1707.07183v2") (lc "article")
    [(lc "title", lc "Counting Multiplicities"),
     (lc "author", lc "Hao Wen and Chunhui Liu"),
     (lc "journal", lc "arXiv preprint arXiv:1707.07183v2"),
     (lc "year", lc "2017"),
     (lc "month", lc "Jul")]
    (some (lc "wen2017")) (lc "middle") false

/-- C5: the month abbreviation `Jul` is converted to `7` at normalization
and the `wen2017` record renders with month field `{7}` inside a block
beginning `@article{wen2017,` — but a month value that is *not* an
abbreviation is not always left unchanged: the empty month value (reached
directly, or via the value `{}`) makes construction raise, because the
empty string is an element of `calendar.month_abbr` yet `strptime` rejects
it. -/
theorem C5_month_conversion_and_empty_crash :
    wenItem.bind (fun b => getField b (lc "month")) = some (lc "7") ∧
    (wenItem.bind render).map (fun s => (lc "@article\x7bwen2017,").isPrefixOf s) =
      some true ∧
    (wenItem.bind render).map (fun s => containsSub s (lc "month = \x7b7\x7d")) =
      some true ∧
    normalizeField (lc "month") (lc "July") =
      some ⟨lc "month", lc "July", false⟩ ∧
    mkBibItem (lc "x") (lc "article") [(lc "month", lc "\x7b\x7d")] none
      (lc "middle") false = none ∧
    normalizeField (lc "month") (lc "") = none := by
  decide

/-! ## Claim C6: arXiv classification and versioned display -/

/-- The feed entry the arXiv API returns for the query `1707.07183v2`
(the versioned identifier is what `_obtain_feed_content` puts in the
request URL). -/
def wenFeedEntry : ArxivFeedEntry :=
  ⟨lc "http://arxiv.org/abs/1707.07183v2",
   lc "Counting Multiplicities in a Hypersurface over a Number Field",
   [lc "Hao Wen", lc "Chunhui Liu"], 2017, 7⟩

/-- C6: classifying `arXiv:1707.07183v2` with arXiv-to-DOI conversion
disabled yields category `arxiv` and the version-stripped simplified
identifier `1707.07183`, while the record built from the provider feed
keeps the versioned identifier for display: its `journal` field is the
literal `arXiv preprint arXiv:1707.07183v2` (and its label also embeds the
versioned identifier). -/
theorem C6_arxiv_version_stripping :
    obtainFeedCategory (lc "arXiv:1707.07183v2") false =
      (lc "arxiv", lc "1707.07183") ∧
    (handleArxiv wenFeedEntry).bind (fun d => odGet d (lc "journal")) =
      some (lc "arXiv preprint arXiv:1707.07183v2") ∧
    (handleArxiv wenFeedEntry).bind (fun d => odGet d (lc "label")) =
      some (lc "wen2017_1707.07183v2") := by
  decide

/-! ## Claim C1: double-brace flag -/

/-- The record whose `publisher` field is supplied as `{{IEEE}}`. -/
def ieeeItem : Option BibItem :=
  mkBibItem (lc "id") (lc "misc") [(lc "publisher", lc "\x7b\x7bIEEE\x7d\x7d")]
    (some (lc "x")) (lc "middle") false

/-- The rendered block of `ieeeItem`. -/
def ieeeRendered : List Char := (ieeeItem.bind render).getD []

/-- C1 counterexample: the field value `{{IEEE}}` does set the
double-brace flag, but the rendered field is `publisher = {{IEEE}}` — the
claimed `{{{IEEE}}}` occurs nowhere in the rendered block — and re-parsing
the rendered block stores the value `{IEEE` with the flag *cleared*, not
the same flagged value. -/
theorem C1_double_brace_counterexample :
    ieeeItem.map (fun b => b.fields) = some [⟨lc "publisher", lc "IEEE", true⟩] ∧
    ieeeRendered = lc "@misc\x7bx,\n  publisher = \x7b\x7bIEEE\x7d\x7d\n\x7d" ∧
    containsSub ieeeRendered (lc "\x7b\x7b\x7bIEEE\x7d\x7d\x7d") = false ∧
    (readBib ieeeRendered).map (fun l => l.map (fun b => b.fields)) =
      some [[⟨lc "publisher", lc "\x7bIEEE", false⟩]] := by
  decide

/-! ## Claim C8: idempotent escaping -/

/-- Direct characterization of the two-step escape
`replace(t, backslash-t).replace(backslash-backslash-t, backslash-t)` for a
target character `t ≠ '\\'`: a `t` already preceded by a backslash is
kept, a bare `t` gains one backslash. -/
def escChar (t : Char) : List Char → List Char
  | [] => []
  | c :: cs =>
    if c = '\\' then
      match cs with
      | [] => ['\\']
      | d :: cs2 =>
        if d = t then '\\' :: t :: escChar t cs2 else '\\' :: escChar t (d :: cs2)
    else if c = t then '\\' :: t :: escChar t cs else c :: escChar t cs

theorem pyReplace_single_cons (t : Char) (r : List Char) (c : Char) (cs : List Char) :
    pyReplace [t] r (c :: cs) =
      if c = t then r ++ pyReplace [t] r cs else c :: pyReplace [t] r cs := by
  by_cases h : c = t
  · subst h
    simp [pyReplace, pyReplaceGo, List.isPrefixOf]
  · have hne : (t == c) = false := by
      simp only [beq_eq_false_iff_ne, ne_eq]
      intro he
      exact h he.symm
    simp [pyReplace, pyReplaceGo, List.isPrefixOf, hne, h]

theorem pyReplace_head_ne (t : Char) (ht : t ≠ '\\') :
    ∀ l : List Char, (pyReplace [t] ['\\', t] l).head? ≠ some t := by
  intro l
  cases l with
  | nil => simp [pyReplace, pyReplaceGo]
  | cons c cs =>
    rw [pyReplace_single_cons]
    by_cases h : c = t
    · simp only [h, if_pos rfl, List.cons_append, List.head?_cons]
      intro he
      injection he with he2
      exact ht he2.symm
    · simp only [if_neg h, List.head?_cons]
      intro he
      injection he with he2
      exact h he2

theorem pyReplace_trip_cons_match (t : Char) (cs : List Char) :
    pyReplace ['\\', '\\', t] ['\\', t] ('\\' :: '\\' :: t :: cs) =
      '\\' :: t :: pyReplace ['\\', '\\', t] ['\\', t] cs := by
  simp [pyReplace, pyReplaceGo, List.isPrefixOf]

theorem pyReplace_trip_cons_nomatch (t : Char) (c : Char) (cs : List Char)
    (h : ¬ (['\\', '\\', t].isPrefixOf (c :: cs) = true)) :
    pyReplace ['\\', '\\', t] ['\\', t] (c :: cs) =
      c :: pyReplace ['\\', '\\', t] ['\\', t] cs := by
  simp [pyReplace, pyReplaceGo, h]

theorem escChar_bs_nil (t : Char) : escChar t ['\\'] = ['\\'] := by
  simp [escChar]

theorem escChar_bs_t (t : Char) (cs2 : List Char) :
    escChar t ('\\' :: t :: cs2) = '\\' :: t :: escChar t cs2 := by
  simp [escChar]

theorem escChar_bs_other (t d : Char) (cs2 : List Char) (hd : d ≠ t) :
    escChar t ('\\' :: d :: cs2) = '\\' :: escChar t (d :: cs2) := by
  simp [escChar, hd]

theorem escChar_t (t : Char) (ht : t ≠ '\\') (cs : List Char) :
    escChar t (t :: cs) = '\\' :: t :: escChar t cs := by
  rw [escChar.eq_def]
  simp [ht]

theorem escChar_other (t c : Char) (cs : List Char) (hc1 : c ≠ '\\') (hc2 : c ≠ t) :
    escChar t (c :: cs) = c :: escChar t cs := by
  rw [escChar.eq_def]
  simp [hc1, hc2]

/-- The composite escape coincides with the direct characterization. -/
theorem escape_eq_escChar (t : Char) (ht : t ≠ '\\') (l : List Char) :
    pyReplace ['\\', '\\', t] ['\\', t] (pyReplace [t] ['\\', t] l) = escChar t l := by
  induction l using escChar.induct t with
  | case1 => simp [pyReplace, pyReplaceGo, escChar]
  | case2 =>
    rw [pyReplace_single_cons, if_neg (Ne.symm ht)]
    have h0 : pyReplace [t] ['\\', t] [] = [] := by simp [pyReplace, pyReplaceGo]
    rw [h0]
    have h1 : ¬ ((['\\', '\\', t].isPrefixOf ['\\']) = true) := by
      simp [List.isPrefixOf]
    rw [pyReplace_trip_cons_nomatch t '\\' [] h1]
    simp [pyReplace, pyReplaceGo, escChar_bs_nil]
  | case3 cs ih =>
    rw [pyReplace_single_cons, if_neg (Ne.symm ht), pyReplace_single_cons, if_pos rfl]
    simp only [List.cons_append, List.nil_append]
    rw [pyReplace_trip_cons_match, ih, escChar_bs_t]
  | case4 c cs hc ih =>
    rw [pyReplace_single_cons, if_neg (Ne.symm ht)]
    have hX := pyReplace_single_cons t ['\\', t] c cs
    rw [if_neg hc] at hX
    rw [hX]
    have hpre : ¬ ((['\\', '\\', t].isPrefixOf
        ('\\' :: c :: pyReplace [t] ['\\', t] cs)) = true) := by
      by_cases hcb : c = '\\'
      · subst hcb
        cases hA : pyReplace [t] ['\\', t] cs with
        | nil => simp [List.isPrefixOf]
        | cons x xs =>
          have hx : ¬ ((t == x) = true) := by
            have hh := pyReplace_head_ne t ht cs
            rw [hA] at hh
            simp only [List.head?_cons] at hh
            simp only [beq_iff_eq]
            intro he
            exact hh (by rw [he])
          simp [List.isPrefixOf, hx]
      · have hne : ¬ (('\\' == c) = true) := by
          simp only [beq_iff_eq]
          exact fun he => hcb he.symm
        simp [List.isPrefixOf, hne]
    rw [pyReplace_trip_cons_nomatch _ _ _ hpre, ← hX, ih, escChar_bs_other t c cs hc]
  | case5 cs h ih =>
    rw [pyReplace_single_cons, if_pos rfl]
    simp only [List.cons_append, List.nil_append]
    have hne : ¬ (('\\' == t) = true) := by
      simp only [beq_iff_eq]
      exact fun he => ht he.symm
    have h1 : ¬ ((['\\', '\\', t].isPrefixOf
        ('\\' :: t :: pyReplace [t] ['\\', t] cs)) = true) := by
      simp [List.isPrefixOf, hne]
    rw [pyReplace_trip_cons_nomatch _ _ _ h1]
    have h2 : ¬ ((['\\', '\\', t].isPrefixOf (t :: pyReplace [t] ['\\', t] cs)) = true) := by
      simp [List.isPrefixOf, hne]
    rw [pyReplace_trip_cons_nomatch _ _ _ h2, ih, escChar_t t ht cs]
  | case6 c cs h1 h2 ih =>
    rw [pyReplace_single_cons, if_neg h2]
    have hne : ¬ (('\\' == c) = true) := by
      simp only [beq_iff_eq]
      exact fun he => h1 he.symm
    have hpre : ¬ ((['\\', '\\', t].isPrefixOf (c :: pyReplace [t] ['\\', t] cs)) = true) := by
      simp [List.isPrefixOf, hne]
    rw [pyReplace_trip_cons_nomatch _ _ _ hpre, ih, escChar_other t c cs h1 h2]

theorem escChar_ne_nil (t c : Char) (cs : List Char) : escChar t (c :: cs) ≠ [] := by
  by_cases h1 : c = '\\'
  · subst h1
    cases cs with
    | nil => simp [escChar]
    | cons d cs2 => by_cases h2 : d = t <;> simp [escChar, h2]
  · by_cases h2 : c = t
    · have ht2 : ¬ t = '\\' := fun he => h1 (h2.trans he)
      rw [h2, escChar_t t ht2 cs]
      simp
    · rw [escChar_other t c cs h1 h2]
      simp

theorem escChar_head_ne (t : Char) (ht : t ≠ '\\') (l : List Char) :
    (escChar t l).head? ≠ some t := by
  cases l with
  | nil => simp [escChar]
  | cons c cs =>
    by_cases h1 : c = '\\'
    · subst h1
      cases cs with
      | nil =>
        rw [escChar_bs_nil]
        simp only [List.head?_cons, ne_eq, Option.some.injEq]
        exact fun he => ht he.symm
      | cons d cs2 =>
        by_cases h2 : d = t
        · subst h2
          rw [escChar_bs_t]
          simp only [List.head?_cons, ne_eq, Option.some.injEq]
          exact fun he => ht he.symm
        · rw [escChar_bs_other t d cs2 h2]
          simp only [List.head?_cons, ne_eq, Option.some.injEq]
          exact fun he => ht he.symm
    · by_cases h2 : c = t
      · rw [h2, escChar_t t ht cs]
        simp only [List.head?_cons, ne_eq, Option.some.injEq]
        exact fun he => ht he.symm
      · rw [escChar_other t c cs h1 h2]
        simp only [List.head?_cons, ne_eq, Option.some.injEq]
        exact h2

/-- The direct characterization is idempotent. -/
theorem escChar_idem (t : Char) (ht : t ≠ '\\') (l : List Char) :
    escChar t (escChar t l) = escChar t l := by
  induction l using escChar.induct t with
  | case1 => simp [escChar]
  | case2 => rw [escChar_bs_nil, escChar_bs_nil]
  | case3 cs ih => rw [escChar_bs_t, escChar_bs_t, ih]
  | case4 c cs hc ih =>
    rw [escChar_bs_other t c cs hc]
    cases hX : escChar t (c :: cs) with
    | nil => exact absurd hX (escChar_ne_nil t c cs)
    | cons x xs =>
      have hx : x ≠ t := by
        have hh := escChar_head_ne t ht (c :: cs)
        rw [hX] at hh
        simp only [List.head?_cons] at hh
        exact fun he => hh (by rw [he])
      rw [escChar_bs_other t x xs hx, ← hX, ih]
  | case5 cs h ih => rw [escChar_t t ht cs, escChar_bs_t, ih]
  | case6 c cs h1 h2 ih =>
    rw [escChar_other t c cs h1 h2, escChar_other t c (escChar t cs) h1 h2, ih]

/-- C8: the underscore escape applied to `title` values and the ampersand
escape applied to all field values are idempotent — applying either
transform twice produces the same result as applying it once; in
particular `A_B` becomes `A\_B` and stays `A\_B`. -/
theorem C8_escape_idempotent :
    (∀ s : List Char, escapeUnderscore (escapeUnderscore s) = escapeUnderscore s) ∧
    (∀ s : List Char, escapeAmp (escapeAmp s) = escapeAmp s) ∧
    escapeUnderscore (lc "A_B") = lc "A\\_B" ∧
    escapeUnderscore (lc "A\\_B") = lc "A\\_B" := by
  have hu : ∀ s : List Char, escapeUnderscore s = escChar '_' s := fun s =>
    escape_eq_escChar '_' (by decide) s
  have ha : ∀ s : List Char, escapeAmp s = escChar '&' s := fun s =>
    escape_eq_escChar '&' (by decide) s
  refine ⟨fun s => ?_, fun s => ?_, by decide, by decide⟩
  · rw [hu, hu, escChar_idem '_' (by decide) s]
  · rw [ha, ha, escChar_idem '&' (by decide) s]

/-! ## Claim C9: rendering an empty field mapping -/

/-- A valid record with one field, for the witness. -/
def c9b : BibItem :=
  ⟨lc "x", lc "misc", [⟨lc "note", lc "n", false⟩], lc "x", lc "middle"⟩

/-- C9: a `BibItem` of entry type `misc` (whose required-field list is
empty) with an empty ordered field mapping is constructible, but rendering
it raises (`max` over the empty sequence of key lengths); rendering
succeeds for every record with at least one field (and a valid `align`). -/
theorem C9_render_empty_fields :
    ((mkBibItem (lc "x") (lc "misc") [] none (lc "middle") true).map
        (fun b => b.fields) = some [] ∧
      (mkBibItem (lc "x") (lc "misc") [] none (lc "middle") true).bind render = none) ∧
    (∀ b : BibItem, b.align ∈ validAligns → b.fields ≠ [] → (render b).isSome = true) := by
  refine ⟨by decide, ?_⟩
  intro b ha hf
  simp only [validAligns, List.mem_cons, List.not_mem_nil, or_false] at ha
  rcases ha with h | h | h | h <;>
    simp [render, hf, h, lc]

/-- C9 witness: the positive half applied to a concrete one-field record. -/
theorem C9_render_empty_fields_witness : (render c9b).isSome = true :=
  C9_render_empty_fields.2 c9b (by decide) (by decide)

/-! ## Claim C2: required-field validation -/

instance : DecidableEq (Except (List Char) Unit) := fun a b =>
  match a, b with
  | .ok _, .ok _ => isTrue rfl
  | .error x, .error y =>
    if h : x = y then isTrue (by rw [h]) else isFalse (by simp [h])
  | .ok _, .error _ => isFalse (by simp)
  | .error _, .ok _ => isFalse (by simp)

/-- An `article` record containing `author` and `year` but neither `title`
nor `journal`. -/
def c2article : Option BibItem :=
  mkBibItem (lc "i") (lc "article") [(lc "author", lc "A"), (lc "year", lc "2020")]
    none (lc "middle") false

/-- A `book` record containing `author` (but not `editor`), `title`,
`publisher` and `year`. -/
def c2book : Option BibItem :=
  mkBibItem (lc "i") (lc "book")
    [(lc "author", lc "A"), (lc "title", lc "T"), (lc "publisher", lc "P"),
     (lc "year", lc "2020")]
    none (lc "middle") false

/-- C2 counterexample: validating an `article` whose fields contain
neither `title` nor `journal` raises at the *first* missing spec — the
error message is exactly `required field "title" is missing` and does not
name `journal`, contradicting the claim that both missing fields are
named. -/
theorem C2_counterexample :
    c2article.map (fun b => checkRequiredFields b.entry_type b.fields) =
      some (Except.error (lc "required field \"title\" is missing")) ∧
    containsSub (lc "required field \"title\" is missing") (lc "journal") = false := by
  decide

theorem runsByAux_all_sat (p : Char → Bool) :
    ∀ (A acc rest : List Char), (∀ c ∈ A, p c = true) →
      runsByAux p acc (A ++ rest) = runsByAux p (A.reverse ++ acc) rest := by
  intro A
  induction A with
  | nil => intro acc rest _; simp
  | cons a as ih =>
    intro acc rest hA
    have ha : p a = true := hA a (by simp)
    simp only [List.cons_append, runsByAux, ha, if_true, List.append_eq]
    rw [ih (a :: acc) rest (fun c hc => hA c (by simp [hc]))]
    simp

/-- `re.findall("\\w+", A ++ "|" ++ B) = [A, B]` for non-empty all-word
`A`, `B`. -/
theorem reWords_pipe (A B : List Char) (hA : A ≠ []) (hB : B ≠ [])
    (hAw : ∀ c ∈ A, isWordChar c = true) (hBw : ∀ c ∈ B, isWordChar c = true) :
    reWords (A ++ '|' :: B) = [A, B] := by
  unfold reWords runsBy
  rw [runsByAux_all_sat isWordChar A [] ('|' :: B) hAw]
  have hpipe : isWordChar '|' = false := by decide
  simp only [runsByAux, hpipe, Bool.false_eq_true, if_false, List.append_nil]
  rw [if_neg (by simpa using hA)]
  have : runsByAux isWordChar [] (B ++ []) = runsByAux isWordChar B.reverse [] := by
    simpa using runsByAux_all_sat isWordChar B [] [] hBw
  simp only [List.append_nil] at this
  rw [this]
  simp only [runsByAux]
  rw [if_neg (by simpa using hB)]
  simp [hA]

/-- C2 (amended): the `article` record missing both `title` and `journal`
fails validation with an error naming the first missing spec (`title`)
only; the `book` record containing `author` but not `editor` passes the
`author|editor` alternative; and in general a spec `A|B` with no `+` is
satisfied exactly when precisely one of `A`, `B` occurs among the record's
field names. -/
theorem C2_required_fields_amended :
    c2article.map (fun b => checkRequiredFields b.entry_type b.fields) =
      some (Except.error (lc "required field \"title\" is missing")) ∧
    c2book.map (fun b => checkRequiredFields b.entry_type b.fields) =
      some (Except.ok ()) ∧
    (∀ (A B : List Char) (fs : List Field),
      A ≠ [] → B ≠ [] →
      (∀ c ∈ A, isWordChar c = true) → (∀ c ∈ B, isWordChar c = true) →
      (checkRequiredAux fs [A ++ '|' :: B] = Except.ok () ↔
        hasFieldName fs A ≠ hasFieldName fs B)) := by
  refine ⟨by decide, by decide, ?_⟩
  intro A B fs hA hB hAw hBw
  have hplus : ('+' ∈ A ++ '|' :: B) = False := by
    simp only [List.mem_append, List.mem_cons, eq_iff_iff, iff_false]
    rintro (h | h | h)
    · have := hAw '+' h
      simp [isWordChar] at this
    · exact absurd h.symm (by decide)
    · have := hBw '+' h
      simp [isWordChar] at this
  simp only [checkRequiredAux, reWords_pipe A B hA hB hAw hBw, hplus]
  cases ha : hasFieldName fs A <;> cases hb : hasFieldName fs B <;>
    simp [List.filter, ha, hb, checkRequiredAux]

/-- C2 witness: the `A|B` characterization applied to `author|editor` on
the `book` record's fields. -/
theorem C2_required_fields_witness :
    checkRequiredAux
        [⟨lc "author", lc "A", false⟩, ⟨lc "title", lc "T", false⟩,
         ⟨lc "publisher", lc "P", false⟩, ⟨lc "year", lc "2020", false⟩]
        [lc "author" ++ '|' :: lc "editor"] = Except.ok () ↔
      hasFieldName
          [⟨lc "author", lc "A", false⟩, ⟨lc "title", lc "T", false⟩,
           ⟨lc "publisher", lc "P", false⟩, ⟨lc "year", lc "2020", false⟩]
          (lc "author") ≠
        hasFieldName
          [⟨lc "author", lc "A", false⟩, ⟨lc "title", lc "T", false⟩,
           ⟨lc "publisher", lc "P", false⟩, ⟨lc "year", lc "2020", false⟩]
          (lc "editor") :=
  C2_required_fields_amended.2.2 (lc "author") (lc "editor") _
    (by decide) (by decide) (by decide) (by decide)

/-! ## Claim C4: two-tier equality -/

/-- An `article` whose `title` is `Foo`. -/
def c4a : Option BibItem :=
  mkBibItem (lc "i") (lc "article") [(lc "title", lc "Foo")] (some (lc "x"))
    (lc "middle") false

/-- An `article` whose `title` is `foo`. -/
def c4b : Option BibItem :=
  mkBibItem (lc "i") (lc "article") [(lc "title", lc "foo")] (some (lc "x"))
    (lc "middle") false

/-- C4 counterexample: two records of the same entry type with equal
labels and *different* title fields (`Foo` vs `foo`) that are equal under
non-strict comparison but — because the two titles coincide after
normalization — also equal under strict comparison, contradicting the
claimed strict inequality. -/
theorem C4_counterexample :
    c4a.bind (fun a => c4b.bind (fun b => pyEq false a b)) = some true ∧
    c4a.bind (fun a => c4b.bind (fun b => pyEq true a b)) = some true ∧
    c4a.bind (fun a => getField a (lc "title")) ≠
      c4b.bind (fun b => getField b (lc "title")) := by
  decide

/-- `Foo`-titled record as a plain value, for the witness. -/
def c4a2 : BibItem :=
  ⟨lc "i", lc "article", [⟨lc "title", lc "Alpha", false⟩], lc "x", lc "middle"⟩

/-- `Beta`-titled record as a plain value, for the witness. -/
def c4b2 : BibItem :=
  ⟨lc "i", lc "article", [⟨lc "title", lc "Beta", false⟩], lc "x", lc "middle"⟩

/-- C4 (amended): for records of identical runtime type and entry type —
(1) with equal labels and title fields whose *normalized* forms differ,
they are equal under non-strict and unequal under strict comparison; and
(2) with titles equal after normalization and the last non-trivial token
of each record's first listed author matching, they are strict-equal
regardless of their labels. -/
theorem C4_two_tier_equality_amended :
    (∀ a b : BibItem, a.entry_type = b.entry_type → a.label = b.label →
      ∀ ta tb, getField a (lc "title") = some ta → getField b (lc "title") = some tb →
      titleNorm ta ≠ titleNorm tb →
      pyEq false a b = some true ∧ pyEq true a b = some false) ∧
    (∀ a b : BibItem, a.entry_type = b.entry_type →
      ∀ ta tb, getField a (lc "title") = some ta → getField b (lc "title") = some tb →
      titleNorm ta = titleNorm tb →
      ∀ ua ub tok, getField a (lc "author") = some ua →
        getField b (lc "author") = some ub →
        firstAuthorToken ua = some tok → firstAuthorToken ub = some tok →
        pyEq true a b = some true) := by
  constructor
  · intro a b het hlab ta tb hta htb hnorm
    constructor
    · simp [pyEq, het, hlab]
    · simp only [pyEq, het, ne_eq, not_true_eq_false, if_false, Bool.not_true,
        hta, htb]
      simp [hnorm]
  · intro a b het ta tb hta htb hnorm ua ub tok hua hub htok1 htok2
    simp only [pyEq, het, ne_eq, not_true_eq_false, if_false, Bool.not_true,
      hta, htb]
    simp only [hnorm, not_true_eq_false, if_false]
    simp only [pyEqAuthors, hua, hub, htok1, htok2]
    simp [pyEqLabel]

/-- C4 witness: part (1) applied to two concrete records with equal labels
and titles that differ after normalization. -/
theorem C4_two_tier_equality_witness :
    pyEq false c4a2 c4b2 = some true ∧ pyEq true c4a2 c4b2 = some false :=
  C4_two_tier_equality_amended.1 c4a2 c4b2 (by decide) (by decide)
    (lc "Alpha") (lc "Beta") (by decide) (by decide) (by decide)

/-! ## Claim C7: FIFO cache eviction -/

theorem odGet_none_find? (m : List (List Char × List Char)) (k : List Char)
    (h : odGet m k = none) : m.find? (fun p => p.1 == k) = none := by
  by_contra hne
  rcases Option.ne_none_iff_exists'.mp hne with ⟨p, hp⟩
  rw [odGet, hp] at h
  simp at h

theorem odGet_none_any (m : List (List Char × List Char)) (k : List Char)
    (h : odGet m k = none) : m.any (fun p => p.1 == k) = false := by
  rw [List.any_eq_false]
  intro p hp hpk
  exact List.find?_eq_none.mp (odGet_none_find? m k h) p hp hpk

theorem odGet_some_any (m : List (List Char × List Char)) (k w : List Char)
    (h : odGet m k = some w) : m.any (fun p => p.1 == k) = true := by
  rw [List.any_eq_true]
  cases hf : m.find? (fun p => p.1 == k) with
  | none => rw [odGet, hf] at h; simp at h
  | some p =>
    refine ⟨p, List.mem_of_find?_eq_some hf, ?_⟩
    simpa using List.find?_some hf

theorem find?_append_of_none {α : Type} (p : α → Bool) (l₁ l₂ : List α)
    (h : l₁.find? p = none) : (l₁ ++ l₂).find? p = l₂.find? p := by
  induction l₁ with
  | nil => simp
  | cons a as ih =>
    cases hpa : p a with
    | true =>
      rw [List.find?_cons_of_pos _ hpa] at h
      simp at h
    | false =>
      rw [List.find?_cons_of_neg _ (by simp [hpa])] at h
      rw [List.cons_append, List.find?_cons_of_neg _ (by simp [hpa])]
      exact ih h

/-- C7: with a cache limit of `N` and a full cache of `N` distinct keys,
inserting a fresh record evicts exactly the first-inserted entry — the
result is the old tail plus the new entry, and the evicted identifier is
no longer present; inserting under an *existing* key updates it in place,
evicting nothing and moving nothing (insertion order, not access order,
governs eviction). -/
theorem C7_cache_fifo_eviction :
    (∀ (limit : Nat) (km vm k v : List Char) (rest : List (List Char × List Char)),
      ((km, vm) :: rest).length = limit →
      (((km, vm) :: rest).map Prod.fst).Nodup →
      odGet ((km, vm) :: rest) k = none →
      cacheStep limit ((km, vm) :: rest) k v = rest ++ [(k, v)] ∧
      odGet (cacheStep limit ((km, vm) :: rest) k v) km = none ∧
      (cacheStep limit ((km, vm) :: rest) k v).length = limit) ∧
    (∀ (limit : Nat) (m : List (List Char × List Char)) (k v w : List Char),
      odGet m k = some w → m.length ≤ limit →
      cacheStep limit m k v = m.map (fun p => if p.1 == k then (k, v) else p)) := by
  constructor
  · intro limit km vm k v rest hlen hnd hget
    have hany : (((km, vm) :: rest).any (fun p => p.1 == k)) = false :=
      odGet_none_any _ _ hget
    have hset : odSet ((km, vm) :: rest) k v = (km, vm) :: (rest ++ [(k, v)]) := by
      simp [odSet, hany]
    have hkm_ne : km ≠ k := by
      intro he
      subst he
      simp [odGet, List.find?] at hget
    have hkm_notin : km ∉ rest.map Prod.fst := by
      simp only [List.map_cons, List.nodup_cons] at hnd
      exact hnd.1
    have hstep : cacheStep limit ((km, vm) :: rest) k v = rest ++ [(k, v)] := by
      simp only [cacheStep, hset]
      rw [if_pos (by simp [← hlen])]
      simp
    refine ⟨hstep, ?_, ?_⟩
    · rw [hstep]
      have h1 : rest.find? (fun q => q.1 == km) = none := by
        rw [List.find?_eq_none]
        intro p hp hpk
        have hp1 : p.1 = km := by simpa using hpk
        exact hkm_notin (hp1 ▸ List.mem_map_of_mem Prod.fst hp)
      have h2 : ((rest ++ [(k, v)]).find? (fun q => q.1 == km)) = none := by
        rw [find?_append_of_none _ _ _ h1, List.find?_eq_none]
        intro p hp hpk
        have hp1 : p = (k, v) := by simpa using hp
        have : k = km := by
          rw [hp1] at hpk
          simpa using hpk
        exact hkm_ne this.symm
      simp [odGet, h2]
    · rw [hstep]
      simp only [List.length_append, List.length_cons, List.length_nil] at hlen ⊢
      omega
  · intro limit m k v w hget hle
    have hany : (m.any (fun p => p.1 == k)) = true := odGet_some_any _ _ _ hget
    have hset : odSet m k v = m.map (fun p => if p.1 == k then (k, v) else p) := by
      simp [odSet, hany]
    simp only [cacheStep, hset]
    have hng : ¬ (m.map (fun p => if p.1 == k then (k, v) else p)).length > limit := by
      simp only [List.length_map]
      omega
    rw [if_neg hng]

/-- C7 witness: eviction applied to a concrete two-entry cache at its
limit. -/
theorem C7_cache_fifo_eviction_witness :
    cacheStep 2 [(lc "a", lc "1"), (lc "b", lc "2")] (lc "c") (lc "3") =
      [(lc "b", lc "2")] ++ [(lc "c", lc "3")] ∧
    odGet (cacheStep 2 [(lc "a", lc "1"), (lc "b", lc "2")] (lc "c") (lc "3"))
      (lc "a") = none ∧
    (cacheStep 2 [(lc "a", lc "1"), (lc "b", lc "2")] (lc "c") (lc "3")).length = 2 :=
  C7_cache_fifo_eviction.1 2 (lc "a") (lc "1") (lc "c") (lc "3")
    [(lc "b", lc "2")] (by decide) (by decide) (by decide)

/-- C1 (amended): the value `{{IEEE}}` sets the double-brace flag and the
field renders as `publisher = {{IEEE}}` — the structural brace pair plus
one extra pair for the flag, reproducing the input — but re-parsing the
rendered block yields a record whose stored `publisher` value is `{IEEE`
with the double-brace flag cleared: the flag does not survive the free-text
re-parse. -/
theorem C1_double_brace_amended :
    ieeeItem.map (fun b => b.fields.map Field.db) = some [true] ∧
    containsSub ieeeRendered (lc "publisher = \x7b\x7bIEEE\x7d\x7d") = true ∧
    (readBib ieeeRendered).map (fun l => l.map (fun b => b.fields)) =
      some [[⟨lc "publisher", lc "\x7bIEEE", false⟩]] := by
  decide

/-! ## Claim C3: parse-render round trip

The counterexample is a record whose label contains a comma; the amended
statement is proved for every record whose label is non-empty and free of
commas, braces and whitespace, conditionally on the re-parse succeeding. -/

theorem isPySpace_char_mem (c : Char) (h : isPySpace c = true) :
    c ∈ [' ', '\t', '\n', '\r', '\x0B', '\x0C'] := by
  simp only [isPySpace, Bool.or_eq_true, decide_eq_true_eq] at h
  simp only [List.mem_cons, List.not_mem_nil, or_false]
  rcases h with ((((h | h) | h) | h) | h) | h
  · exact Or.inl h
  · exact Or.inr (Or.inl h)
  · exact Or.inr (Or.inr (Or.inl h))
  · exact Or.inr (Or.inr (Or.inr (Or.inl h)))
  · exact Or.inr (Or.inr (Or.inr (Or.inr (Or.inl (Char.ext (by rw [h]; rfl))))))
  · exact Or.inr (Or.inr (Or.inr (Or.inr (Or.inr (Char.ext (by rw [h]; rfl))))))

theorem isWordChar_not_space (c : Char) (h : isWordChar c = true) :
    isPySpace c = false := by
  by_contra hs
  have hs' : isPySpace c = true := by
    revert hs
    cases isPySpace c <;> simp
  have hmem := isPySpace_char_mem c hs'
  simp only [List.mem_cons, List.not_mem_nil, or_false] at hmem
  rcases hmem with rfl | rfl | rfl | rfl | rfl | rfl <;> exact absurd h (by decide)

theorem isAlpha_char_facts (c : Char) (h : c.isAlpha = true) :
    isWordChar c = true ∧ isPySpace c = false ∧ c ≠ ',' ∧ c ≠ '{' ∧ c ≠ '}' ∧
      c ≠ '\n' ∧ isCS c = false ∧ (c.isAlpha || c = '_') = true := by
  have hw : isWordChar c = true := by
    simp only [isWordChar, Char.isAlphanum, Bool.or_eq_true]
    exact Or.inl (Or.inl (Or.inl h))
  refine ⟨hw, isWordChar_not_space c hw, ?_, ?_, ?_, ?_, ?_, by simp [h]⟩
  · intro he; rw [he] at h; exact absurd h (by decide)
  · intro he; rw [he] at h; exact absurd h (by decide)
  · intro he; rw [he] at h; exact absurd h (by decide)
  · intro he; rw [he] at h; exact absurd h (by decide)
  · simp only [isCS, Bool.or_eq_false_iff]
    constructor
    · simp only [decide_eq_false_iff_not]
      intro he; rw [he] at h; exact absurd h (by decide)
    · simp only [decide_eq_false_iff_not]
      intro he; rw [he] at h; exact absurd h (by decide)

/-- The facts needed about every valid entry-type name, checked over the
full table. -/
theorem entryType_facts :
    ∀ τ ∈ ENTRY_TYPES, τ ≠ [] ∧ τ.all (fun c => c.isAlpha) = true ∧
      isIgnoredType τ = false ∧ lowerCL τ = τ := by
  decide

theorem toLower_eq_comma (c : Char) (h : c.toLower = ',') : c = ',' := by
  unfold Char.toLower at h
  simp only [] at h
  by_cases hn : c.toNat ≥ 65 ∧ c.toNat ≤ 90
  · rw [if_pos hn] at h
    exfalso
    have hv : Nat.isValidChar (c.toNat + 32) := by
      unfold Nat.isValidChar
      left
      omega
    have hval : (Char.ofNat (c.toNat + 32)).toNat = c.toNat + 32 := by
      unfold Char.ofNat
      rw [dif_pos hv]
      simp [Char.ofNatAux, Char.toNat, UInt32.toNat, BitVec.toNat_ofNatLt]
    rw [h] at hval
    have h44 : (','.toNat) = 44 := by decide
    omega
  · rw [if_neg hn] at h
    exact h

theorem collapseWs_nonspace_pre :
    ∀ (p q : List Char), (∀ c ∈ p, isPySpace c = false) →
      collapseWs (p ++ q) = p ++ collapseWs q := by
  intro p
  induction p with
  | nil => intro q _; simp
  | cons c cs ih =>
    intro q hp
    have hc : isPySpace c = false := hp c (by simp)
    simp only [List.cons_append, collapseWs, hc, Bool.false_eq_true, if_false,
      List.append_eq]
    rw [ih q (fun d hd => hp d (by simp [hd]))]

theorem collapseWs_comma_head (u : List Char) (h : u = [] ∨ u.head? = some ',') :
    collapseWs u = [] ∨ (collapseWs u).head? = some ',' := by
  rcases h with rfl | h
  · left; rfl
  · cases u with
    | nil => left; rfl
    | cons c cs =>
      right
      simp only [List.head?_cons, Option.some.injEq] at h
      subst h
      simp [collapseWs, isPySpace]

theorem splitNl_nlfree :
    ∀ (a : List Char), (∀ c ∈ a, c ≠ '\n') → splitNl a = [a] := by
  intro a
  induction a with
  | nil => intro _; rfl
  | cons c cs ih =>
    intro h
    have hc : c ≠ '\n' := h c (by simp)
    simp only [splitNl]
    rw [ih (fun d hd => h d (by simp [hd]))]
    simp [hc]

theorem splitNl_ne_nil : ∀ (a : List Char), splitNl a ≠ [] := by
  intro a
  cases a with
  | nil => simp [splitNl]
  | cons c cs =>
    simp only [splitNl]
    cases h : splitNl cs with
    | nil => simp
    | cons x xs => by_cases hc : c = '\n' <;> simp [hc]

theorem splitNl_append_nlfree :
    ∀ (a b : List Char), (∀ c ∈ a, c ≠ '\n') →
      splitNl (a ++ '\n' :: b) = a :: splitNl b := by
  intro a
  induction a with
  | nil =>
    intro b _
    simp only [List.nil_append, splitNl]
    cases h : splitNl b with
    | nil => exact absurd h (splitNl_ne_nil b)
    | cons x xs => simp
  | cons c cs ih =>
    intro b h
    have hc : c ≠ '\n' := h c (by simp)
    simp only [List.cons_append, splitNl, List.append_eq]
    rw [ih b (fun d hd => h d (by simp [hd]))]
    simp [hc]

theorem rdropWhileCL_eq (p : Char → Bool) (l : List Char) :
    rdropWhileCL p l = List.rdropWhile p l := rfl

theorem rdropWhileCL_append (p : Char → Bool) (a b : List Char) (ha : a ≠ [])
    (hlast : ∀ c, a.getLast? = some c → p c = false) :
    rdropWhileCL p (a ++ b) = a ++ rdropWhileCL p b := by
  unfold rdropWhileCL
  rw [List.reverse_append, List.dropWhile_append]
  have hrev : b.reverse.dropWhile p ++ a.reverse = (b.reverse.dropWhile p ++ a.reverse) := rfl
  by_cases hb : (b.reverse.dropWhile p).isEmpty = true
  · rw [if_pos hb]
    have hbnil : b.reverse.dropWhile p = [] := by
      revert hb
      cases b.reverse.dropWhile p <;> simp
    cases ha' : a.reverse with
    | nil => exact absurd (by simpa using ha') ha
    | cons x xs =>
      have hx : a.getLast? = some x := by
        rw [← List.head?_reverse, ha']
        rfl
      have hpx : p x = false := hlast x hx
      rw [List.dropWhile_cons_of_neg (by simp [hpx])]
      rw [← ha', List.reverse_reverse, hbnil]
      simp
  · rw [if_neg hb]
    rw [List.reverse_append, List.reverse_reverse]

theorem stripCS_atP (a b : List Char) (hhead : ∀ c, a.head? = some c → isCS c = false)
    (ha : a ≠ []) (hlast : ∀ c, a.getLast? = some c → isCS c = false) :
    stripCS (a ++ b) = a ++ rdropWhileCL isCS b := by
  unfold stripCS pyStripChars
  cases a with
  | nil => exact absurd rfl ha
  | cons x xs =>
    have hx : isCS x = false := hhead x (by simp)
    rw [List.cons_append, List.dropWhile_cons_of_neg (by simp [hx]), ← List.cons_append]
    exact rdropWhileCL_append isCS (x :: xs) b (by simp) hlast

theorem rdropWhileCL_head (p : Char → Bool) (l : List Char) :
    rdropWhileCL p l = [] ∨ (rdropWhileCL p l).head? = l.head? := by
  rw [rdropWhileCL_eq]
  rcases List.rdropWhile_prefix p l with ⟨t, ht⟩
  cases hr : List.rdropWhile p l with
  | nil => exact Or.inl rfl
  | cons x xs =>
    right
    rw [← ht, hr]
    simp

theorem braceSub_nobrace_pre :
    ∀ (a b : List Char), (∀ c ∈ a, c ≠ '}') →
      braceSubGo 0 (a ++ b) = a ++ braceSubGo 0 b := by
  intro a
  induction a with
  | nil => intro b _; simp
  | cons c cs ih =>
    intro b h
    have hc : c ≠ '}' := h c (by simp)
    simp only [List.cons_append, braceSubGo, gt_iff_lt, Nat.lt_irrefl, if_false, hc,
      List.append_eq]
    rw [ih b (fun d hd => h d (by simp [hd]))]

theorem braceSub_comma_head (u : List Char) (h : u = [] ∨ u.head? = some ',') :
    braceSubGo 0 u = [] ∨ (braceSubGo 0 u).head? = some ',' := by
  rcases h with rfl | h
  · left; rfl
  · cases u with
    | nil => left; rfl
    | cons c cs =>
      right
      simp only [List.head?_cons, Option.some.injEq] at h
      subst h
      simp [braceSubGo]

theorem takeWhile_append_all (p : Char → Bool) :
    ∀ (a u : List Char), (∀ c ∈ a, p c = true) →
      (u = [] ∨ ∃ d x, u = d :: x ∧ p d = false) →
      (a ++ u).takeWhile p = a := by
  intro a
  induction a with
  | nil =>
    intro u _ hu
    rcases hu with rfl | ⟨d, x, rfl, hd⟩
    · rfl
    · simp [List.takeWhile_cons, hd]
  | cons c cs ih =>
    intro u h hu
    have hc : p c = true := h c (by simp)
    simp only [List.cons_append, List.takeWhile_cons, hc, if_true]
    rw [ih u (fun d hd => h d (by simp [hd])) hu]

theorem fieldMatchTail_head (l : List Char) (m : Nat) (h : fieldMatchTail l = some m) :
    l.head? = some ',' := by
  cases l with
  | nil => simp [fieldMatchTail] at h
  | cons c cs =>
    by_cases hc : c = ','
    · simp [hc]
    · simp [fieldMatchTail, hc] at h

theorem scanFSGo_comma :
    ∀ (cs : List Char) (i skip j : Nat), j ∈ scanFSGo i skip cs →
      ∃ k, j = i + k ∧ (cs.drop k).head? = some ',' := by
  intro cs
  induction cs with
  | nil => intro i skip j h; simp [scanFSGo] at h
  | cons c cs' ih =>
    intro i skip j h
    simp only [scanFSGo] at h
    by_cases hs : skip > 0
    · rw [if_pos hs] at h
      rcases ih (i + 1) (skip - 1) j h with ⟨k, rfl, hk⟩
      exact ⟨k + 1, by omega, by simpa using hk⟩
    · rw [if_neg hs] at h
      cases hf : fieldMatchTail (c :: cs') with
      | some m =>
        rw [hf] at h
        simp only [List.mem_cons] at h
        rcases h with rfl | h
        · exact ⟨0, by omega, by simpa using fieldMatchTail_head _ _ hf⟩
        · rcases ih (i + 1) m j h with ⟨k, rfl, hk⟩
          exact ⟨k + 1, by omega, by simpa using hk⟩
      | none =>
        rw [hf] at h
        rcases ih (i + 1) 0 j h with ⟨k, rfl, hk⟩
        exact ⟨k + 1, by omega, by simpa using hk⟩

theorem scan_comma (res : List Char) (j : Nat) (h : j ∈ scanFSGo 0 0 (lowerCL res)) :
    (res.drop j).head? = some ',' := by
  rcases scanFSGo_comma (lowerCL res) 0 0 j h with ⟨k, hk, hc⟩
  have hk0 : j = k := by omega
  subst hk0
  rw [lowerCL, ← List.map_drop, List.head?_map] at hc
  rcases Option.map_eq_some'.mp hc with ⟨c, hc1, hc2⟩
  rw [hc1]
  rw [toLower_eq_comma c hc2]

theorem comma_pos_ge (p q : List Char) (hp : ∀ c ∈ p, c ≠ ',') :
    ∀ k, ((p ++ q).drop k).head? = some ',' → p.length ≤ k := by
  intro k hk
  by_contra hlt
  push_neg at hlt
  rw [List.drop_append_of_le_length (by omega)] at hk
  cases hd : p.drop k with
  | nil =>
    have hlen := List.drop_eq_nil_iff.mp hd
    omega
  | cons x xs =>
    rw [hd] at hk
    simp only [List.cons_append, List.head?_cons, Option.some.injEq] at hk
    exact hp x (List.mem_of_mem_drop (by rw [hd]; simp)) hk

theorem take_at_comma (p w : List Char) (hp : ∀ c ∈ p, c ≠ ',')
    (hw : w = [] ∨ w.head? = some ',') (m : Nat)
    (hm : ((p ++ w).drop m).head? = some ',') :
    ∃ u, (p ++ w).take m = p ++ u ∧ (u = [] ∨ u.head? = some ',') := by
  have hge : p.length ≤ m := comma_pos_ge p w hp m hm
  refine ⟨w.take (m - p.length), ?_, ?_⟩
  · rw [List.take_append_eq_append_take, List.take_of_length_le (by omega)]
  · rcases hw with rfl | hw
    · left; simp
    · cases w with
      | nil => left; simp
      | cons d x =>
        simp only [List.head?_cons, Option.some.injEq] at hw
        subst hw
        by_cases hm0 : m - p.length = 0
        · left; simp [hm0]
        · right
          obtain ⟨n, hn⟩ : ∃ n, m - p.length = n + 1 := ⟨m - p.length - 1, by omega⟩
          rw [hn]
          simp

theorem mkBibItem_proj (idtf τ : List Char) (fs : List (List Char × List Char))
    (L al : List Char) (cf : Bool) (b : BibItem)
    (h : mkBibItem idtf τ fs (some L) al cf = some b) :
    b.entry_type = lowerCL τ ∧ b.label = L := by
  unfold mkBibItem at h
  by_cases h1 : lowerCL τ ∈ ENTRY_TYPES
  · rw [if_pos h1] at h
    cases hn : normalizeFieldsAux [] fs with
    | none => rw [hn] at h; exact absurd h (by simp)
    | some fs2 =>
      rw [hn] at h
      dsimp only at h
      by_cases h2 : cf ∧ ¬ (checkRequiredFields (lowerCL τ) fs2).isOk = true
      · rw [if_pos h2] at h; exact absurd h (by simp)
      · rw [if_neg h2] at h
        by_cases h3 : al ∈ validAligns
        · rw [if_pos h3] at h
          injection h with h4
          rw [← h4]
          exact ⟨rfl, rfl⟩
        · rw [if_neg h3] at h; exact absurd h (by simp)
  · rw [if_neg h1] at h; exact absurd h (by simp)

theorem mem_of_getLast_opt : ∀ (l : List Char) (c : Char), l.getLast? = some c → c ∈ l := by
  intro l
  induction l with
  | nil => intro c h; simp at h
  | cons x xs ih =>
    intro c h
    cases hx : xs with
    | nil => rw [hx] at h; simp only [List.getLast?_singleton, Option.some.injEq] at h; simp [h]
    | cons y ys =>
      rw [hx] at h ih
      rw [List.getLast?_cons_cons] at h
      exact List.mem_cons_of_mem x (ih c h)

theorem dropWhile_spaces (k : Nat) (x : List Char) :
    List.dropWhile isCS (List.replicate k ' ' ++ x) = List.dropWhile isCS x := by
  induction k with
  | zero => simp
  | succ n ih => simp [List.replicate_succ, isCS, ih]

theorem headerMatch_shape (τ L u : List Char) (hτ : τ ≠ [])
    (hτa : ∀ c ∈ τ, c.isAlpha = true) (hL : L ≠ [])
    (hLc : ∀ c ∈ L, c ≠ ',')
    (hu : u = [] ∨ u.head? = some ',') :
    headerMatch (('@' :: (τ ++ '{' :: L)) ++ u) = some (τ, L) := by
  have hshape : ('@' :: (τ ++ '{' :: L)) ++ u = '@' :: (τ ++ '{' :: (L ++ u)) := by simp
  rw [hshape]
  have hw : (τ ++ '{' :: (L ++ u)).takeWhile isWordChar = τ := by
    apply takeWhile_append_all
    · intro c hc; exact (isAlpha_char_facts c (hτa c hc)).1
    · right; exact ⟨'{', L ++ u, rfl, by decide⟩
  have hdrop : (τ ++ '{' :: (L ++ u)).drop τ.length = '{' :: (L ++ u) :=
    List.drop_left τ _
  have hlab : (L ++ u).takeWhile (fun c => decide (c ≠ ',')) = L := by
    apply takeWhile_append_all
    · intro c hc; simpa using hLc c hc
    · rcases hu with rfl | hu
      · left; rfl
      · cases u with
        | nil => left; rfl
        | cons d x =>
          simp only [List.head?_cons, Option.some.injEq] at hu
          right; exact ⟨d, x, rfl, by simp [hu]⟩
  have hunf : headerMatch ('@' :: (τ ++ '{' :: (L ++ u))) =
      (if (τ ++ '{' :: (L ++ u)).takeWhile isWordChar = [] then none
       else
         match (τ ++ '{' :: (L ++ u)).drop
             ((τ ++ '{' :: (L ++ u)).takeWhile isWordChar).length with
         | '{' :: cs2 =>
           if cs2.takeWhile (fun c => decide (c ≠ ',')) = [] then none
           else some ((τ ++ '{' :: (L ++ u)).takeWhile isWordChar,
             cs2.takeWhile (fun c => decide (c ≠ ',')))
         | _ => none) := rfl
  rw [hunf, hw, hdrop, if_neg hτ]
  split
  next cs2 heq =>
    injection heq with h1 h2
    subst h2
    rw [hlab, if_neg hL]
  next hne =>
    exact absurd rfl (hne (L ++ u))

theorem firstLine_header (P u0 : List Char)
    (hPne : P ≠ []) (hPh : ∀ c, P.head? = some c → isCS c = false)
    (hPl : ∀ c, P.getLast? = some c → isCS c = false)
    (hPb : ∀ c ∈ P, c ≠ '}')
    (hu0 : u0 = [] ∨ u0.head? = some ',') :
    stripCS (P ++ u0) ≠ [] ∧
      ∃ u2, braceSub (stripCS (P ++ u0)) = P ++ u2 ∧ (u2 = [] ∨ u2.head? = some ',') := by
  rw [stripCS_atP P u0 hPh hPne hPl]
  refine ⟨by simp [hPne], ?_⟩
  have hu1 : rdropWhileCL isCS u0 = [] ∨ (rdropWhileCL isCS u0).head? = some ',' := by
    rcases rdropWhileCL_head isCS u0 with h | h
    · exact Or.inl h
    · rcases hu0 with rfl | h0
      · left; rfl
      · right; rw [h, h0]
  rw [show braceSub (P ++ rdropWhileCL isCS u0)
      = braceSubGo 0 (P ++ rdropWhileCL isCS u0) from rfl]
  rw [braceSub_nobrace_pre P (rdropWhileCL isCS u0) hPb]
  exact ⟨braceSubGo 0 (rdropWhileCL isCS u0), rfl, braceSub_comma_head _ hu1⟩

theorem parseTail_proj (τ L u0 : List Char) (tail1 : List (List Char)) (b : BibItem)
    (hτ : τ ≠ []) (hτa : ∀ c ∈ τ, c.isAlpha = true)
    (hL : L ≠ []) (hLc : ∀ c ∈ L, c ≠ ',' ∧ c ≠ '}' ∧ isPySpace c = false)
    (hu0 : u0 = [] ∨ u0.head? = some ',')
    (h : (let lines1 := (('@' :: (τ ++ '{' :: L)) ++ u0) :: tail1
          let lines2 :=
            if fieldSearch (lowerCL (lines1.getLastD [])) then lines1 ++ [['}']] else lines1
          let lines3 := lines2.filterMap
            (fun ln => let s := stripCS ln; if s = [] then none else some (braceSub s))
          match lines3 with
          | [] => none
          | l0 :: restLines =>
            match headerMatch l0 with
            | none => none
            | some (etype, lab) =>
              match buildFieldDict [] restLines.dropLast with
              | none => none
              | some fd0 =>
                let fd1 :=
                  match odGet fd0 (lc "title") with
                  | some tv => odSet fd0 (lc "title") (escapeUnderscore tv)
                  | none => fd0
                let fd2 := fd1.foldl (fun acc p => odSet acc (lowerCL p.1) (stripCS p.2)) []
                let fd3 := fd2.map (fun p => (p.1, processValue p.2))
                mkBibItem lab etype (reorderFields fd3) (some lab) (lc "middle") false) =
          some b) :
    b.entry_type = lowerCL τ ∧ b.label = L := by
  have hPmem : ∀ c ∈ ('@' :: (τ ++ '{' :: L)), isCS c = false ∧ c ≠ '}' := by
    intro c hc
    simp only [List.mem_cons, List.mem_append] at hc
    rcases hc with rfl | (hc | (rfl | hc))
    · exact ⟨by decide, by decide⟩
    · have hf := isAlpha_char_facts c (hτa c hc)
      exact ⟨hf.2.2.2.2.2.2.1, hf.2.2.2.2.1⟩
    · exact ⟨by decide, by decide⟩
    · rcases hLc c hc with ⟨h1, h2, h3⟩
      refine ⟨?_, h2⟩
      simp only [isCS, Bool.or_eq_false_iff, decide_eq_false_iff_not]
      refine ⟨h1, ?_⟩
      intro he; rw [he] at h3; exact absurd h3 (by decide)
  obtain ⟨hne0, u2, hb2, hu2⟩ :=
    firstLine_header ('@' :: (τ ++ '{' :: L)) u0 (by simp)
      (fun c hc => by
        simp only [List.head?_cons, Option.some.injEq] at hc
        rw [← hc]; decide)
      (fun c hc => (hPmem c (mem_of_getLast_opt _ c hc)).1)
      (fun c hc => (hPmem c hc).2)
      hu0
  have hsplit : ∀ (C : Bool) (X : List Char) (tl : List (List Char)) (Y : List Char),
      (if C = true then (X :: tl) ++ [Y] else X :: tl) =
        X :: (if C = true then tl ++ [Y] else tl) := by
    intro C X tl Y; cases C <;> simp
  simp only [hsplit, List.filterMap_cons] at h
  rw [if_neg hne0, hb2] at h
  simp only [headerMatch_shape τ L u2 hτ hτa hL (fun c hc => (hLc c hc).1) hu2] at h
  split at h
  · exact absurd h (by simp)
  · exact mkBibItem_proj L τ _ L (lc "middle") false b h

theorem toBibItemText_label (τ L T : List Char) (b : BibItem)
    (hτ : τ ≠ []) (hτa : ∀ c ∈ τ, c.isAlpha = true)
    (hL : L ≠ []) (hLc : ∀ c ∈ L, c ≠ ',' ∧ c ≠ '}' ∧ isPySpace c = false)
    (h : toBibItemText (('@' :: (τ ++ '{' :: L)) ++ ',' :: '\n' :: T) = some b) :
    b.entry_type = lowerCL τ ∧ b.label = L := by
  have hPs : ∀ c ∈ ('@' :: (τ ++ '{' :: L)) ++ [','], isPySpace c = false := by
    intro c hc
    simp only [List.mem_append, List.mem_cons, List.mem_singleton,
      List.not_mem_nil, or_false] at hc
    rcases hc with (rfl | (hc | (rfl | hc))) | rfl
    · decide
    · exact (isAlpha_char_facts c (hτa c hc)).2.1
    · decide
    · exact (hLc c hc).2.2
    · decide
  have hshape : ('@' :: (τ ++ '{' :: L)) ++ ',' :: '\n' :: T
      = (('@' :: (τ ++ '{' :: L)) ++ [',']) ++ '\n' :: T := by simp
  rw [hshape] at h
  simp only [toBibItemText] at h
  rw [collapseWs_nonspace_pre _ _ hPs] at h
  have hassoc : (('@' :: (τ ++ '{' :: L)) ++ [',']) ++ collapseWs ('\n' :: T)
      = ('@' :: (τ ++ '{' :: L)) ++ ',' :: collapseWs ('\n' :: T) := by simp
  rw [hassoc] at h
  have hPc : ∀ c ∈ ('@' :: (τ ++ '{' :: L)), c ≠ ',' := by
    intro c hc
    simp only [List.mem_cons, List.mem_append] at hc
    rcases hc with rfl | (hc | (rfl | hc))
    · decide
    · exact (isAlpha_char_facts c (hτa c hc)).2.2.1
    · decide
    · exact (hLc c hc).1
  cases hms : scanFSGo 0 0
      (lowerCL (('@' :: (τ ++ '{' :: L)) ++ ',' :: collapseWs ('\n' :: T))) with
  | nil =>
    rw [hms] at h
    simp only [linesFrom, List.drop_zero] at h
    exact parseTail_proj τ L (',' :: collapseWs ('\n' :: T)) [] b hτ hτa hL hLc (Or.inr rfl) h
  | cons m ms' =>
    rw [hms] at h
    simp only [linesFrom, List.drop_zero, Nat.sub_zero] at h
    have hmem : m ∈ scanFSGo 0 0
        (lowerCL (('@' :: (τ ++ '{' :: L)) ++ ',' :: collapseWs ('\n' :: T))) := by
      rw [hms]; exact List.mem_cons_self m ms'
    have hcomma := scan_comma _ m hmem
    obtain ⟨u0, htake, hu0⟩ :=
      take_at_comma ('@' :: (τ ++ '{' :: L)) (',' :: collapseWs ('\n' :: T))
        hPc (Or.inr rfl) m hcomma
    rw [htake] at h
    exact parseTail_proj τ L u0 _ b hτ hτa hL hLc hu0 h

theorem splitNl_joinChar :
    ∀ (xs : List (List Char)) (x : List Char), (∀ c ∈ x, c ≠ '\n') →
      (∀ p ∈ xs, ∀ c ∈ p, c ≠ '\n') → splitNl (joinChar '\n' (x :: xs)) = x :: xs := by
  intro xs
  induction xs with
  | nil => intro x hx _; exact splitNl_nlfree x hx
  | cons y ys ih =>
    intro x hx hxs
    rw [show joinChar '\n' (x :: y :: ys) = x ++ '\n' :: joinChar '\n' (y :: ys) from rfl]
    rw [splitNl_append_nlfree x _ hx]
    rw [ih y (hxs y (by simp)) (fun p hp => hxs p (by simp [hp]))]

theorem readLoop_gather :
    ∀ (body : List (List Char)) (items : List BibItem) (buf : List (List Char)),
      buf ≠ [] →
      (∀ q ∈ body, stripCS q ≠ [] ∧ (stripCS q).head? ≠ some '%' ∧
        (stripCS q).head? ≠ some '@') →
      readLoop items buf body = flushBlock items (buf ++ body.map stripCS) := by
  intro body
  induction body with
  | nil =>
    intro items buf hbuf _
    simp only [readLoop, List.map_nil, List.append_nil]
    rw [if_neg hbuf]
  | cons q qs ih =>
    intro items buf hbuf hq
    obtain ⟨h1, h2, h3⟩ := hq q (by simp)
    simp only [readLoop]
    rw [if_neg (not_or.mpr ⟨h2, h1⟩), if_neg h3]
    rw [ih items (buf ++ [stripCS q]) (by simp) (fun p hp => hq p (by simp [hp]))]
    simp

theorem addCommas_mem :
    ∀ (l : List (List Char × List Char)) (p : List Char × List Char), p ∈ addCommas l →
      ∃ q ∈ l, p.1 = q.1 ∧ (p.2 = q.2 ∨ p.2 = q.2 ++ [',']) := by
  intro l
  induction l with
  | nil => intro p hp; simp [addCommas] at hp
  | cons a as ih =>
    intro p hp
    cases as with
    | nil =>
      simp only [addCommas, List.mem_singleton] at hp
      exact ⟨a, by simp, by rw [hp], Or.inl (by rw [hp])⟩
    | cons b bs =>
      simp only [addCommas, List.mem_cons] at hp
      rcases hp with rfl | hp
      · exact ⟨a, by simp, rfl, Or.inr rfl⟩
      · obtain ⟨q, hq, hq1, hq2⟩ := ih p hp
        exact ⟨q, List.mem_cons_of_mem a hq, hq1, hq2⟩

theorem renderFieldVal_chars (f : Field) (c : Char) (hc : c ∈ renderFieldVal f) :
    c = '{' ∨ c = '}' ∨ c ∈ f.val := by
  unfold renderFieldVal at hc
  by_cases hdb : f.db = true
  · rw [if_pos hdb] at hc
    simp only [List.mem_cons, List.mem_append, List.mem_singleton] at hc
    tauto
  · rw [if_neg hdb] at hc
    simp only [List.mem_cons, List.mem_append, List.mem_singleton] at hc
    tauto

theorem headerP_facts (τ L : List Char) (hτa : ∀ c ∈ τ, c.isAlpha = true)
    (hLc : ∀ c ∈ L, c ≠ ',' ∧ c ≠ '}' ∧ isPySpace c = false) :
    ∀ c ∈ ('@' :: (τ ++ '{' :: L)), isCS c = false ∧ c ≠ '}' ∧ c ≠ '\n' := by
  intro c hc
  simp only [List.mem_cons, List.mem_append] at hc
  rcases hc with rfl | (hc | (rfl | hc))
  · exact ⟨by decide, by decide, by decide⟩
  · have hf := isAlpha_char_facts c (hτa c hc)
    exact ⟨hf.2.2.2.2.2.2.1, hf.2.2.2.2.1, hf.2.2.2.2.2.1⟩
  · exact ⟨by decide, by decide, by decide⟩
  · rcases hLc c hc with ⟨h1, h2, h3⟩
    refine ⟨?_, h2, ?_⟩
    · simp only [isCS, Bool.or_eq_false_iff, decide_eq_false_iff_not]
      exact ⟨h1, fun he => by rw [he] at h3; exact absurd h3 (by decide)⟩
    · intro he; rw [he] at h3; exact absurd h3 (by decide)

theorem fieldLine_strip_facts (nm rest : List Char) (hnm : nm ≠ [])
    (ha : ∀ c ∈ nm, c.isAlpha = true) (k : Nat) (hrest : '=' ∈ rest) :
    stripCS (spaces k ++ (nm ++ rest)) ≠ [] ∧
      (stripCS (spaces k ++ (nm ++ rest))).head? ≠ some '%' ∧
      (stripCS (spaces k ++ (nm ++ rest))).head? ≠ some '@' := by
  cases nm with
  | nil => exact absurd rfl hnm
  | cons a tl =>
    have haa : a.isAlpha = true := ha a (by simp)
    have hacs : isCS a = false := (isAlpha_char_facts a haa).2.2.2.2.2.2.1
    have hstrip : stripCS (spaces k ++ ((a :: tl) ++ rest))
        = rdropWhileCL isCS ((a :: tl) ++ rest) := by
      unfold stripCS pyStripChars
      rw [spaces, dropWhile_spaces]
      rw [List.cons_append, List.dropWhile_cons_of_neg (by simp [hacs]), ← List.cons_append]
    have hnil : rdropWhileCL isCS ((a :: tl) ++ rest) ≠ [] := by
      rw [rdropWhileCL_eq]
      intro hcon
      rw [List.rdropWhile_eq_nil_iff] at hcon
      have he := hcon '=' (by simp [hrest])
      exact absurd he (by decide)
    rcases rdropWhileCL_head isCS ((a :: tl) ++ rest) with hh | hh
    · exact absurd hh hnil
    · rw [hstrip]
      have hh' : (rdropWhileCL isCS ((a :: tl) ++ rest)).head? = some a := by
        rw [hh, List.cons_append, List.head?_cons]
      refine ⟨hnil, ?_, ?_⟩
      · rw [hh']
        intro hcon
        injection hcon with hcon
        rw [hcon] at haa
        exact absurd haa (by decide)
      · rw [hh']
        intro hcon
        injection hcon with hcon
        rw [hcon] at haa
        exact absurd haa (by decide)

theorem typeMatch_header (τ L : List Char) (hτne : τ ≠ [])
    (hτa : ∀ c ∈ τ, c.isAlpha = true) :
    typeMatch ('@' :: (τ ++ '{' :: L)) = some τ := by
  cases τ with
  | nil => exact absurd rfl hτne
  | cons a tl =>
    have hcw : countWhile isPySpace ((a :: tl) ++ '{' :: L) = 0 := by
      rw [List.cons_append]
      simp [countWhile, (isAlpha_char_facts a (hτa a (by simp))).2.1]
    have hunf : typeMatch ('@' :: ((a :: tl) ++ '{' :: L)) =
        (if (((a :: tl) ++ '{' :: L).drop
              (countWhile isPySpace ((a :: tl) ++ '{' :: L))).takeWhile
              (fun c => c.isAlpha || c = '_') = [] then none
         else some ((((a :: tl) ++ '{' :: L).drop
              (countWhile isPySpace ((a :: tl) ++ '{' :: L))).takeWhile
              (fun c => c.isAlpha || c = '_'))) := rfl
    rw [hunf, hcw, List.drop_zero]
    rw [takeWhile_append_all _ _ _
      (fun c hc => (isAlpha_char_facts c (hτa c hc)).2.2.2.2.2.2.2)
      (Or.inr ⟨'{', L, rfl, by decide⟩)]
    rw [if_neg (by simp)]

theorem flushBlock_single (buf : List (List Char)) (w : List Char)
    (htm2 : typeMatch (buf.headD []) = some w) (hw : isIgnoredType w = false) :
    flushBlock [] buf = (toBibItemText (joinSep (lc ",\n") buf)).map (fun x => [x]) := by
  unfold flushBlock
  rw [htm2]
  show (if isIgnoredType w = true then some []
        else (toBibItemText (joinSep (lc ",\n") buf)).map (fun x => [] ++ [x])) = _
  rw [if_neg (by simp [hw])]
  rfl

/-- C3: the round-trip `read_bib_file(str(record))` gives back a record that is
non-strict-equal to the original.  As stated over every label the claim fails
(`C3_roundtrip_counterexample`); it holds for records whose label is free of
commas, closing braces and whitespace, whose field names are alphabetic, and
whose field values contain no newline, under the default `middle` alignment. -/
theorem C3_roundtrip_amended
    (r : BibItem) (s : List Char) (l : List BibItem) (b : BibItem)
    (hty : r.entry_type ∈ ENTRY_TYPES)
    (halign : r.align = lc "middle")
    (hLne : r.label ≠ [])
    (hLc : ∀ c ∈ r.label, c ≠ ',' ∧ c ≠ '}' ∧ isPySpace c = false)
    (hfl : ∀ f ∈ r.fields, f.name ≠ [] ∧ (∀ c ∈ f.name, c.isAlpha = true) ∧
      (∀ c ∈ f.val, c ≠ '\n'))
    (hs : render r = some s)
    (hl : readBib s = some l)
    (hb : l.head? = some b) :
    pyEq false b r = some true := by
  obtain ⟨hτne, hτalpha', hτign, hτlower⟩ := entryType_facts r.entry_type hty
  have hτalpha : ∀ c ∈ r.entry_type, c.isAlpha = true :=
    fun c hc => List.all_eq_true.mp hτalpha' c hc
  have hPfacts := headerP_facts r.entry_type r.label hτalpha hLc
  have hfne : r.fields ≠ [] := by
    intro hf
    simp only [render, hf] at hs
    simp at hs
  simp only [render] at hs
  rw [if_neg hfne, halign, if_pos rfl] at hs
  injection hs with hs2
  subst hs2
  have hhdr_nl : ∀ c ∈ ('@' :: (r.entry_type ++ '{' :: (r.label ++ [',']))), c ≠ '\n' := by
    intro c hc
    simp only [List.mem_cons, List.mem_append, List.not_mem_nil, or_false] at hc
    rcases hc with rfl | (hc | (rfl | (hc | rfl)))
    · decide
    · exact (isAlpha_char_facts c (hτalpha c hc)).2.2.2.2.2.1
    · decide
    · have h3 := (hLc c hc).2.2
      intro he; rw [he] at h3; exact absurd h3 (by decide)
    · decide
  have hbody_all : ∀ p ∈
      ((addCommas (r.fields.map (fun f => (f.name, renderFieldVal f)))).map
        (fun p => spaces (2 + maxKeyLen r.fields - p.1.length) ++ p.1 ++ lc " = " ++ p.2)
        ++ [['}']]),
      (∀ c ∈ p, c ≠ '\n') ∧ (stripCS p ≠ [] ∧ (stripCS p).head? ≠ some '%' ∧
        (stripCS p).head? ≠ some '@') := by
    intro p hp
    rcases List.mem_append.mp hp with hp | hp
    · obtain ⟨pr, hpr, rfl⟩ := List.mem_map.mp hp
      obtain ⟨q, hq, hq1, hq2⟩ := addCommas_mem _ pr hpr
      obtain ⟨f, hf, rfl⟩ := List.mem_map.mp hq
      obtain ⟨hfn_ne, hfn_alpha, hfv_nl⟩ := hfl f hf
      constructor
      · intro c hc
        simp only [List.mem_append] at hc
        rcases hc with ((hc | hc) | hc) | hc
        · rw [spaces] at hc
          rw [List.eq_of_mem_replicate hc]; decide
        · rw [hq1] at hc
          exact (isAlpha_char_facts c (hfn_alpha c hc)).2.2.2.2.2.1
        · rw [show lc " = " = [' ', '=', ' '] from rfl] at hc
          simp only [List.mem_cons, List.not_mem_nil, or_false] at hc
          rcases hc with rfl | (rfl | rfl) <;> decide
        · rcases hq2 with hq2 | hq2 <;> rw [hq2] at hc
          · rcases renderFieldVal_chars f c hc with rfl | (rfl | hc)
            · decide
            · decide
            · exact hfv_nl c hc
          · rcases List.mem_append.mp hc with hc | hc
            · rcases renderFieldVal_chars f c hc with rfl | (rfl | hc)
              · decide
              · decide
              · exact hfv_nl c hc
            · simp only [List.mem_singleton] at hc
              rw [hc]; decide
      · have hre : spaces (2 + maxKeyLen r.fields - pr.1.length) ++ pr.1 ++ lc " = " ++ pr.2
            = spaces (2 + maxKeyLen r.fields - pr.1.length) ++ (pr.1 ++ (lc " = " ++ pr.2)) := by
          simp [List.append_assoc]
        rw [hre]
        exact fieldLine_strip_facts pr.1 (lc " = " ++ pr.2)
          (by rw [hq1]; exact hfn_ne)
          (fun c hc => by rw [hq1] at hc; exact hfn_alpha c hc)
          _
          (List.mem_append_left _ (by rw [show lc " = " = [' ', '=', ' '] from rfl]; simp))
    · simp only [List.mem_singleton] at hp
      subst hp
      exact ⟨by decide, by decide, by decide, by decide⟩
  unfold readBib at hl
  rw [splitNl_joinChar _ _ hhdr_nl (fun p hp => (hbody_all p hp).1)] at hl
  have hstripH : stripCS ('@' :: (r.entry_type ++ '{' :: (r.label ++ [','])))
      = '@' :: (r.entry_type ++ '{' :: r.label) := by
    have h1 : ('@' :: (r.entry_type ++ '{' :: (r.label ++ [','])))
        = ('@' :: (r.entry_type ++ '{' :: r.label)) ++ [','] := by simp
    rw [h1]
    rw [stripCS_atP _ _ (fun c hc => by
        simp only [List.head?_cons, Option.some.injEq] at hc
        rw [← hc]; decide) (by simp)
      (fun c hc => (hPfacts c (mem_of_getLast_opt _ c hc)).1)]
    rw [show rdropWhileCL isCS [','] = [] from rfl]
    simp
  simp only [readLoop] at hl
  rw [hstripH] at hl
  rw [if_neg (not_or.mpr ⟨by rw [List.head?_cons]; decide, by simp⟩)] at hl
  rw [if_pos (by rw [List.head?_cons])] at hl
  rw [if_pos trivial] at hl
  rw [readLoop_gather _ [] _ (by simp) (fun q hq => (hbody_all q hq).2)] at hl
  rw [List.singleton_append] at hl
  rw [flushBlock_single (('@' :: (r.entry_type ++ '{' :: r.label)) ::
      ((addCommas (r.fields.map (fun f => (f.name, renderFieldVal f)))).map
        (fun p => spaces (2 + maxKeyLen r.fields - p.1.length) ++ p.1 ++ lc " = " ++ p.2)
        ++ [['}']]).map stripCS) r.entry_type
    (typeMatch_header r.entry_type r.label hτne hτalpha) hτign] at hl
  cases hR : ((addCommas (r.fields.map (fun f => (f.name, renderFieldVal f)))).map
      (fun p => spaces (2 + maxKeyLen r.fields - p.1.length) ++ p.1 ++ lc " = " ++ p.2)
      ++ [['}']]).map stripCS with
  | nil => simp at hR
  | cons y ys =>
    rw [hR] at hl
    have hjs : joinSep (lc ",\n") (('@' :: (r.entry_type ++ '{' :: r.label)) :: y :: ys)
        = ('@' :: (r.entry_type ++ '{' :: r.label)) ++
            ',' :: '\n' :: joinSep (lc ",\n") (y :: ys) := by
      rw [show joinSep (lc ",\n") (('@' :: (r.entry_type ++ '{' :: r.label)) :: y :: ys)
          = ('@' :: (r.entry_type ++ '{' :: r.label)) ++ lc ",\n" ++ joinSep (lc ",\n") (y :: ys)
        from rfl]
      rw [show lc ",\n" = [',', '\n'] from rfl]
      simp
    rw [hjs] at hl
    cases hbt : toBibItemText (('@' :: (r.entry_type ++ '{' :: r.label)) ++
        ',' :: '\n' :: joinSep (lc ",\n") (y :: ys)) with
    | none => rw [hbt] at hl; exact absurd hl (by simp)
    | some b2 =>
      rw [hbt] at hl
      simp only [Option.map_some'] at hl
      injection hl with hl2
      subst hl2
      simp only [List.head?_cons, Option.some.injEq] at hb
      subst hb
      obtain ⟨hbet, hblab⟩ :=
        toBibItemText_label r.entry_type r.label _ b2 hτne hτalpha hLne hLc hbt
      have hbet' : b2.entry_type = r.entry_type := by rw [hbet, hτlower]
      unfold pyEq
      rw [if_neg (not_not_intro hbet')]
      rw [if_pos (by decide)]
      rw [hblab]
      simp

/-- A record whose label contains a comma: legal for `BibItem.__init__`, but the
label is truncated at the comma by the free-text parse of the rendered text. -/
def c3r : BibItem := ⟨lc "xx", lc "misc", [⟨lc "note", lc "n", false⟩], lc "a,b", lc "middle"⟩

/-- Counterexample to the unrestricted C3 round-trip claim: the record with
label `a,b` renders fine, but parsing the rendered text yields label `a`, and
non-strict equality with the original record is `False`. -/
theorem C3_roundtrip_counterexample :
    c3r.entry_type ∈ ENTRY_TYPES ∧ c3r.label = lc "a,b" ∧
    (((render c3r).bind readBib).bind List.head?).map (fun b => b.label) = some (lc "a") ∧
    (((render c3r).bind readBib).bind List.head?).map (fun b => pyEq false b c3r)
      = some (some false) := by decide

/-- A well-behaved record instantiating the amended C3 round trip. -/
def c3w : BibItem := ⟨lc "k", lc "misc", [⟨lc "note", lc "n", false⟩], lc "k", lc "middle"⟩

/-- Witness: the amended C3 round-trip theorem applied to the concrete record
`c3w`, whose rendered text parses back to an equal record. -/
theorem C3_roundtrip_witness : pyEq false c3w c3w = some true :=
  C3_roundtrip_amended c3w (lc "@misc\x7bk,\n  note = \x7bn\x7d\n\x7d") [c3w] c3w
    (by decide) rfl (by decide) (by decide) (by decide)
    (by decide) (by decide) rfl

end BibLookup
